import Mathlib

/-!
# Verification of the mdBook client-side search module (`src/theme/book.js`)

This file gives a shallow embedding of the search-related core of
`src/theme/book.js`: the URL codec (`parseURL` / `renderURL`), the teaser
generator (`makeTeaser`), the search/URL state synchronizer
(`setSearchUrlParameters`, `doSearchOrMarkFromUrl`), the keyboard
navigation handler (`globalKeyHandler`) and the query executor
(`doSearch`).

JavaScript strings are modelled as `List Char` (`Str`).  JavaScript
numbers appearing here are integer-valued and far below 2^53, so they are
modelled as `Int`/`Nat` exactly.  Browser collaborators (the `<a>`-element
URL parser, `decodeURIComponent`, the stemmer, the DOM result list) are
modelled explicitly where the code's behaviour depends on them; each such
model is documented at its definition.
-/

abbrev Str := List Char

/-! ## Generic string helpers (JS `split`, `replace`, `join` on `List Char`) -/

/-- Split at the first occurrence of `c`: `some (before, after)` with
`s = before ++ c :: after` and `c ∉ before`; `none` if `c` does not occur. -/
def splitFirst (c : Char) : Str → Option (Str × Str)
  | [] => none
  | x :: xs =>
    if x = c then some ([], xs)
    else
      match splitFirst c xs with
      | none => none
      | some (a, b) => some (x :: a, b)

/-- JS `s.split(c)` for a one-character separator: always returns at least
one (possibly empty) piece. -/
def splitAll (c : Char) : Str → List Str
  | [] => [[]]
  | x :: xs =>
    if x = c then [] :: splitAll c xs
    else
      match splitAll c xs with
      | [] => [[x]]
      | p :: ps => (x :: p) :: ps

/-- JS `s.split(sep)` for a two-character separator (leftmost,
non-overlapping), as used by `makeTeaser`'s `body.split('. ')`. -/
def splitSeq2 (c1 c2 : Char) : Str → List Str
  | [] => [[]]
  | [x] => [[x]]
  | x :: y :: rest =>
    if x = c1 ∧ y = c2 then [] :: splitSeq2 c1 c2 rest
    else
      match splitSeq2 c1 c2 (y :: rest) with
      | [] => [[x]]
      | p :: ps => (x :: p) :: ps

/-- JS `parts.join(sep)`. -/
def joinSep (sep : Str) : List Str → Str
  | [] => []
  | p :: ps =>
    match ps with
    | [] => p
    | _ :: _ => p ++ sep ++ joinSep sep ps

/-- JS `s.replace(c, rep)` with a one-character (non-regex) pattern:
replaces only the first occurrence. -/
def replaceFirst (c : Char) (rep : Str) : Str → Str
  | [] => []
  | x :: xs => if x = c then rep ++ xs else x :: replaceFirst c rep xs

/-- `s.replace(/^\?/, '')`: strip one leading `?` if present. -/
def stripLeadQ : Str → Str
  | '?' :: r => r
  | s => s

/-- JS `s.startsWith(p)`. -/
def strStartsWith (s p : Str) : Bool := s.take p.length = p

/-! ## JS-object parameter maps

`parseURL` stores query parameters in a plain JS object.  We model it as
an association list with JS assignment semantics: assigning to an existing
key overwrites in place, assigning a fresh key appends.  A value of `none`
models the JS value `undefined` (a segment without `=` yields
`ret[s[0]] = s[1]` with `s[1] === undefined`). -/

abbrev Params := List (Str × Option Str)

/-- JS `obj[k] = v` on the parameter object. -/
def insertParam (ps : Params) (k : Str) (v : Option Str) : Params :=
  match ps with
  | [] => [(k, v)]
  | (k', v') :: rest => if k' = k then (k, v) :: rest else (k', v') :: insertParam rest k v

/-- JS `delete obj[k]`: the key is removed (parameter objects built by
`parseURL` hold each key at most once). -/
def removeParam : Params → Str → Params
  | [], _ => []
  | (k', v') :: rest, k =>
    if k' = k then removeParam rest k else (k', v') :: removeParam rest k

/-- JS `obj.hasOwnProperty(k)`. -/
def hasKey (ps : Params) (k : Str) : Bool :=
  ps.any (fun kv => kv.1 = k)

/-- Lookup: `some v` when the key is present with (JS) value `v`
(`v = none` models `undefined`), `none` when the key is absent. -/
def lookupParam (ps : Params) (k : Str) : Option (Option Str) :=
  match ps with
  | [] => none
  | (k', v') :: rest => if k' = k then some v' else lookupParam rest k

/-! ## The browser `<a>` URL parser (collaborator model)

`parseURL` reads `protocol`, `hostname`, `port`, `search`, `hash` and
`pathname` off a freshly created anchor element.  We model the anchor's
parsing of an (absolute) URL string: the fragment is everything after the
first `#`; the query is everything after the first `?` of the remainder;
the scheme is everything before the first `:`; an authority introduced by
`//` runs to the next `/`; host and port split at the first `:` of the
authority.  Browser-specific normalizations (lowercasing, percent-encoding,
default-path insertion, userinfo/IPv6 handling, base-URL resolution of
relative references) are not modelled; the claims settled here are
insensitive to them. -/

structure Anchor where
  protocol : Str
  hostname : Str
  port : Str
  pathname : Str
  search : Str
  hash : Str
deriving Repr, DecidableEq

/-- The fragment stage: `(rest-before-hash, a.hash)`; the browser reports
`""` for an absent or empty fragment and `#frag` otherwise. -/
def splitHash (u : Str) : Str × Str :=
  match splitFirst '#' u with
  | none => (u, [])
  | some (a, f) => (a, if f = [] then [] else '#' :: f)

/-- The query stage: `(rest-before-query, a.search)`; `""` for an absent or
empty query and `?query` otherwise. -/
def splitQuery (s : Str) : Str × Str :=
  match splitFirst '?' s with
  | none => (s, [])
  | some (a, q) => (a, if q = [] then [] else '?' :: q)

/-- The scheme stage: `(a.protocol (with its ':'), rest)`. -/
def splitScheme (s : Str) : Str × Str :=
  match splitFirst ':' s with
  | none => ([':'], s)
  | some (sch, r) => (sch ++ [':'], r)

/-- The authority stage: `(a.hostname, a.port, a.pathname)`.  An authority
is introduced by `//` and runs to the next `/`; host and port split at the
first `:` of the authority. -/
def splitAuthority (rest : Str) : Str × Str × Str :=
  if rest.take 2 = ['/', '/'] then
    match splitFirst ':' ((rest.drop 2).takeWhile (fun c => c ≠ '/')) with
    | none => ((rest.drop 2).takeWhile (fun c => c ≠ '/'), [],
        (rest.drop 2).dropWhile (fun c => c ≠ '/'))
    | some (h, p) => (h, p, (rest.drop 2).dropWhile (fun c => c ≠ '/'))
  else
    ([], [], rest)

def anchorParse (u : Str) : Anchor :=
  ⟨(splitScheme (splitQuery (splitHash u).1).1).1,
    (splitAuthority (splitScheme (splitQuery (splitHash u).1).1).2).1,
    (splitAuthority (splitScheme (splitQuery (splitHash u).1).1).2).2.1,
    (splitAuthority (splitScheme (splitQuery (splitHash u).1).1).2).2.2,
    (splitQuery (splitHash u).1).2,
    (splitHash u).2⟩

/-! ## `parseURL` and `renderURL` (source: `book.js` lines 600–643) -/

structure UrlState where
  protocol : Str
  host : Str
  port : Str
  params : Params
  file : Str
  hash : Str
  path : Str
deriving Repr, DecidableEq

/-- The key of a query segment: text before the first `=`, or the whole
segment when it has no `=` (JS `seg.split('=')[0]`). -/
def segKey (seg : Str) : Str :=
  match splitFirst '=' seg with
  | none => seg
  | some (k, _) => k

/-- The value of a query segment: JS `seg.split('=')[1]`, i.e. the text
between the first and second `=`; `none` (JS `undefined`) when the segment
has no `=`. -/
def segVal (seg : Str) : Option Str :=
  match splitFirst '=' seg with
  | none => none
  | some (_, rest) =>
    match splitFirst '=' rest with
    | none => some rest
    | some (v, _) => some v

/-- The parameter-object construction of `parseURL`: split the search
string (leading `?` stripped) on `&`, skip empty segments, and assign
`ret[s[0]] = s[1]` for each remaining segment. -/
def paramsOfSearch (search : Str) : Params :=
  (splitAll '&' (stripLeadQ search)).foldl
    (fun ret seg => if seg = [] then ret else insertParam ret (segKey seg) (segVal seg))
    []

/-- The `file` field: regex `/\/([^/?#]+)$/` on the pathname — the text
after the last `/`, provided it is non-empty and free of `/?#`. -/
def fileOf (p : Str) : Str :=
  let parts := splitAll '/' p
  match parts with
  | [] => []
  | [_] => []
  | _ :: _ :: _ =>
    let seg := parts.getLastD []
    if seg ≠ [] ∧ seg.all (fun c => c ≠ '?' ∧ c ≠ '#') then seg else []

/-- `pathname.replace(/^([^/])/, '/$1')`: prefix a `/` unless the pathname
is empty or already starts with `/`. -/
def pathFix (p : Str) : Str :=
  match p with
  | [] => []
  | c :: r => if c = '/' then c :: r else '/' :: c :: r

/-- `parseURL` (lines 600–623), composed with the anchor model. -/
def parseURL (u : Str) : UrlState :=
  { protocol := replaceFirst ':' [] (anchorParse u).protocol
    host := (anchorParse u).hostname
    port := (anchorParse u).port
    params := paramsOfSearch (anchorParse u).search
    file := fileOf (anchorParse u).pathname
    hash := replaceFirst '#' [] (anchorParse u).hash
    path := pathFix (anchorParse u).pathname }

/-- JS string coercion of a parameter value: `undefined` concatenates as
`"undefined"`. -/
def jsParamString (v : Option Str) : Str :=
  match v with
  | some s => s
  | none => "undefined".data

/-- The parameter loop of `renderURL`: joiner starts as `?` and becomes
`&` after the first emitted pair. -/
def renderParams (ps : Params) : Str :=
  (ps.foldl (fun (acc : Str × Str) kv => (acc.1 ++ acc.2 ++ kv.1 ++ ['='] ++ jsParamString kv.2, ['&']))
    ([], ['?'])).1

/-- `renderURL` (lines 626–643). -/
def renderURL (s : UrlState) : Str :=
  s.protocol ++ "://".data ++ s.host
    ++ (if s.port ≠ [] then ':' :: s.port else [])
    ++ s.path
    ++ renderParams s.params
    ++ (if s.hash ≠ [] then '#' :: s.hash else [])

/-! ## The teaser generator `makeTeaser` (source: lines 689–781)

The stemmer (`elasticlunr.stemmer`) is an external collaborator; it enters
as an explicit function parameter `stem`.  The configured
`searchoptions.teaser_word_count` enters as the parameter `twc` (its value
in the file is 30). -/

structure TeaserWord where
  word : Str
  weight : Int
  offset : Nat
deriving Repr, DecidableEq

structure TeaserScan where
  weighted : List TeaserWord
  found : Bool
  index : Nat
deriving Repr, DecidableEq

/-- The inner search-term loop: `value` becomes 40 if the stemmed word
starts with any stemmed search term. -/
def termMatches (stem : Str → Str) (sterms : List Str) (w : Str) : Bool :=
  sterms.any (fun t => strStartsWith (stem w) t)

/-- One iteration of the word loop of `makeTeaser` (lines 710–724): the
running `value` travels alongside the global scan state. -/
def stepWord (stem : Str → Str) (sterms : List Str) (acc : TeaserScan × Int) (w : Str) :
    TeaserScan × Int :=
  let (st, value) := acc
  if 0 < w.length then
    let matched := termMatches stem sterms w
    let v' := if matched then 40 else value
    ({ weighted := st.weighted ++ [⟨w, v', st.index⟩]
       found := st.found || matched
       index := st.index + w.length + 1 }, 2)
  else
    ({ st with index := st.index + w.length + 1 }, value)

/-- One iteration of the sentence loop (lines 707–726): reset `value` to 8,
process the words, then advance `index` once more for the two-character
`'. '` boundary. -/
def stepSentence (stem : Str → Str) (sterms : List Str) (st : TeaserScan) (sentence : Str) :
    TeaserScan :=
  let words := splitAll ' ' sentence
  let r := words.foldl (stepWord stem sterms) (st, 8)
  { r.1 with index := r.1.index + 1 }

/-- The weighting phase of `makeTeaser`: split the body into sentences on
`'. '` and scan them. -/
def teaserScan (stem : Str → Str) (terms : List Str) (body : Str) : TeaserScan :=
  let sterms := terms.map stem
  (splitSeq2 '.' ' ' body).foldl (stepSentence stem sterms) ⟨[], false, 0⟩

/-- The sliding-window sums (lines 732–744): seed with the sum of the first
`ws` weights, then slide by subtracting the leaving and adding the entering
weight, pushing each running sum. -/
def windowWeights (w : List Int) (ws : Nat) : List Int :=
  ((List.range (w.length - ws)).foldl
    (fun (acc : List Int × Int) i =>
      (acc.1 ++ [acc.2 - w.getD i 0 + w.getD (i + ws) 0],
        acc.2 - w.getD i 0 + w.getD (i + ws) 0))
    ([(w.take ws).sum], (w.take ws).sum)).1

/-- The backwards maximum scan (lines 746–755): `max_sum` starts at 0 and
is replaced only on strictly greater sums, walking indices from last to
first. -/
def bestWindowAux (ww : List Int) : List Nat → Int × Nat → Int × Nat
  | [], acc => acc
  | i :: is, acc =>
    bestWindowAux ww is (if ww.getD i 0 > acc.1 then (ww.getD i 0, i) else acc)

/-- The selected window start (lines 746–758): the backwards scan when a
search term was found anywhere, otherwise window 0. -/
def selectedWindowIndex (ww : List Int) (found : Bool) : Nat :=
  if found then (bestWindowAux ww ((List.range ww.length).reverse) (0, 0)).2 else 0

/-- `window_size` (line 733). -/
def teaserWindowSize (stem : Str → Str) (terms : List Str) (body : Str) (twc : Nat) : Nat :=
  min (teaserScan stem terms body).weighted.length twc

/-- The full `window_weight` array of `makeTeaser`. -/
def teaserWindowWeights (stem : Str → Str) (terms : List Str) (body : Str) (twc : Nat) :
    List Int :=
  windowWeights ((teaserScan stem terms body).weighted.map (fun t => t.weight))
    (teaserWindowSize stem terms body twc)

/-- `max_sum_window_index` as computed by `makeTeaser`. -/
def teaserSelectedWindow (stem : Str → Str) (terms : List Str) (body : Str) (twc : Nat) : Nat :=
  selectedWindowIndex (teaserWindowWeights stem terms body twc)
    (teaserScan stem terms body).found

/-- The weight sum of the window of `ws` words starting at `j` — the
quantity the specification's "maximum over all contiguous windows" speaks
about. -/
def windowSum (wts : List Int) (ws j : Nat) : Int :=
  ((wts.drop j).take ws).sum

/-- The emission phase (lines 760–780): concatenate the selected window's
words with the original inter-word text, wrapping weight-40 words in
`<em>`. -/
def teaserEmit (body : Str) (weighted : List TeaserWord) (sel ws : Nat) : Str :=
  ((List.range ws).foldl
    (fun (acc : Str × Nat) k =>
      match weighted.get? (sel + k) with
      | none => acc
      | some w =>
        let gap : Str := if acc.2 < w.offset then (body.drop acc.2).take (w.offset - acc.2) else []
        let em1 : Str := if w.weight = 40 then "<em>".data else []
        let em2 : Str := if w.weight = 40 then "</em>".data else []
        (acc.1 ++ gap ++ em1 ++ (body.drop w.offset).take w.word.length ++ em2,
          w.offset + w.word.length))
    ([], (weighted.get? sel).elim 0 (fun w => w.offset))).1

/-- `makeTeaser` assembled (parameterized by the stemmer and
`teaser_word_count`). -/
def makeTeaser (stem : Str → Str) (twc : Nat) (body : Str) (searchterms : List Str) : Str :=
  let sc := teaserScan stem searchterms body
  if sc.weighted.length = 0 then body
  else
    let ws := min sc.weighted.length twc
    let ww := windowWeights (sc.weighted.map (fun t => t.weight)) ws
    teaserEmit body sc.weighted (selectedWindowIndex ww sc.found) ws

/-! ## The search session: `doSearch` (lines 961–987)

Only the state read and written by `doSearch`'s control flow is modelled:
the cached current term, the (opaque) index handle, and the log of calls
made to the external `searchindex.search`. -/

structure SearchSession where
  current_searchterm : Str
  searchindex : Option Unit
  lookups : List Str
deriving Repr, DecidableEq

/-- `doSearch` (lines 961–987): return early on the cached term, cache the
new term, return early on a missing index, otherwise perform the lookup. -/
def doSearch (st : SearchSession) (searchterm : Str) : SearchSession :=
  if st.current_searchterm = searchterm then st
  else
    let st1 := { st with current_searchterm := searchterm }
    match st1.searchindex with
    | none => st1
    | some _ => { st1 with lookups := st1.lookups ++ [searchterm] }

/-! ## `setSearchUrlParameters` (lines 941–959) -/

def urlSearchParam : Str := "search".data

def urlMarkParam : Str := "highlight".data

def pushAction : Str := "push".data

def replaceAction : Str := "replace".data

def pifAction : Str := "push_if_new_search_else_replace".data

inductive HistOp where
  | push
  | replace
deriving Repr, DecidableEq

/-- The URL mutation performed by `setSearchUrlParameters` before it
commits (lines 942–950). -/
def searchUrlUpdate (href searchterm action : Str) : UrlState :=
  let url := parseURL href
  if searchterm ≠ [] ∨ action = pifAction then
    { url with
      params := removeParam (insertParam url.params urlSearchParam (some searchterm)) urlMarkParam
      hash := [] }
  else
    { url with params := removeParam url.params urlSearchParam }

/-- `setSearchUrlParameters` (lines 941–959): the pre-existing URL enters
as `href`; the result is the history operation performed (if any) together
with the committed URL string. -/
def setSearchUrlParameters (href searchterm action : Str) : Option (HistOp × Str) :=
  let url := parseURL href
  let first_search := ¬ hasKey url.params urlSearchParam
  let url' := searchUrlUpdate href searchterm action
  if action = pushAction ∨ (action = pifAction ∧ first_search) then
    some (HistOp.push, renderURL url')
  else if action = replaceAction ∨ (action = pifAction ∧ ¬ first_search) then
    some (HistOp.replace, renderURL url')
  else
    none

/-! ## `doSearchOrMarkFromUrl` (lines 823–843)

`decodeURIComponent` is a browser builtin that throws `URIError` on
malformed percent-encoding; it enters as an explicit fallible parameter
`dec` (`none` models the thrown error).  The concrete model
`percentDecode` below instantiates it for counterexamples. -/

inductive UrlSearchOutcome where
  | raised
  | hidden
  | shown (value : Str)
deriving Repr, DecidableEq

/-- JS `x != ""` for a parameter value `x` that may be `undefined`
(`undefined != ""` is true). -/
def jsNeEmpty (v : Option Str) : Bool :=
  match v with
  | none => true
  | some s => s ≠ []

/-- `(x + '').replace(/\+/g, '%20')`: string-coerce, then replace every
`+` with `%20`. -/
def replacePlus : Str → Str
  | [] => []
  | c :: r => (if c = '+' then "%20".data else [c]) ++ replacePlus r

/-- The search-parameter branch of `doSearchOrMarkFromUrl` (lines
824–834): on a present, JS-nonempty `search` parameter the searchbar is
revealed and populated with the decoded value; a decoding error
propagates (there is no try/catch in the source). -/
def doSearchOrMarkFromUrl (dec : Str → Option Str) (href : Str) : UrlSearchOutcome :=
  let url := parseURL href
  match lookupParam url.params urlSearchParam with
  | none => UrlSearchOutcome.hidden
  | some v =>
    if jsNeEmpty v then
      match dec (replacePlus (jsParamString v)) with
      | some d => UrlSearchOutcome.shown d
      | none => UrlSearchOutcome.raised
    else UrlSearchOutcome.hidden

/-- Hex digit value, as used by percent-decoding. -/
def hexVal (c : Char) : Option Nat :=
  if '0' ≤ c ∧ c ≤ '9' then some (c.toNat - 48)
  else if 'A' ≤ c ∧ c ≤ 'F' then some (c.toNat - 55)
  else if 'a' ≤ c ∧ c ≤ 'f' then some (c.toNat - 87)
  else none

/-- Model of the browser's `decodeURIComponent`: a `%` must be followed by
two hex digits; the decoded byte becomes a character.  Multi-byte UTF-8
sequences (lead bytes ≥ 0x80) are conservatively rejected — the claims
settled with this model only exercise ASCII and malformed inputs, on which
it agrees with the builtin (which throws exactly when decoding fails,
modelled as `none`). -/
def percentDecode : Str → Option Str
  | [] => some []
  | c :: rest =>
    if c = '%' then
      match rest with
      | a :: b :: r2 =>
        match hexVal a, hexVal b with
        | some ha, some hb =>
          if 16 * ha + hb < 128 then (percentDecode r2).map (fun t => Char.ofNat (16 * ha + hb) :: t)
          else none
        | _, _ => none
      | _ => none
    else (percentDecode rest).map (fun t => c :: t)

/-! ## The keyboard navigation handler `globalKeyHandler` (lines 846–899)

The DOM is a collaborator: the handler's observable focus state is
abstracted as the pair (searchbar focused?, index of the result item
carrying the `focus` class).  Two of the handler's branches throw a
TypeError whenever they are reached:

* line 871, `searchresults.children('li')`: `searchresults` is the plain
  DOM element fetched with `getElementById` (line 558), whose `children`
  property is an HTMLCollection, not a function, so the call throws —
  after `e.preventDefault()` and `unfocusSearchbar()` have already run,
  so the bar is left blurred and no result item is ever classed;
* line 878, `search.searchresults.find("li.focus")`: the module is the
  named function expression `(function search() { ... })()` (line 550),
  so the identifier `search` inside its body denotes the function object
  itself, which has no `searchresults` property; reading `.find` of
  `undefined` throws — before `e.preventDefault()` and before any class
  or focus mutation, so the state is unchanged at the throw.

Both throws happen before the rendered result list is ever consulted, so
the outcome does not depend on how many results are displayed and the
model takes no result count.  The model returns the focus state at
normal return or at the point of the throw, together with a flag
recording whether the handler threw. -/

structure SearchFocus where
  barFocused : Bool
  cls : Option Nat
deriving Repr, DecidableEq

inductive SearchKey where
  | escape
  | hotkey
  | down
  | up
  | enter
  | other
deriving Repr, DecidableEq

structure KeyEvent where
  key : SearchKey
  modifier : Bool
deriving Repr, DecidableEq

/-- The focus state when the handler finishes, and whether it finished by
throwing a TypeError instead of returning. -/
structure KeyOutcome where
  state : SearchFocus
  threw : Bool
deriving Repr, DecidableEq

/-- `globalKeyHandler` (lines 846–899).  Escape blurs the bar and returns
(the result item's class is untouched); the hotkey focuses the bar when
it is not focused and returns; Down from the focused bar blurs it and
then throws at line 871; Down/Up/Enter with the bar unfocused throw at
line 878 before touching any state. -/
def globalKeyHandler (e : KeyEvent) (st : SearchFocus) : KeyOutcome :=
  if e.modifier then ⟨st, false⟩
  else if e.key = SearchKey.escape then ⟨{ st with barFocused := false }, false⟩
  else if ¬ st.barFocused ∧ e.key = SearchKey.hotkey then
    ⟨{ st with barFocused := true }, false⟩
  else if st.barFocused ∧ e.key = SearchKey.down then
    ⟨{ barFocused := false, cls := st.cls }, true⟩
  else if ¬ st.barFocused
      ∧ (e.key = SearchKey.down ∨ e.key = SearchKey.up ∨ e.key = SearchKey.enter) then
    ⟨st, true⟩
  else ⟨st, false⟩

def keyEv (k : SearchKey) : KeyEvent := ⟨k, false⟩

/-- Invariant of the backwards scan: after all indices in `[k, n)` have
been examined, the accumulator is `(0, 0)` with all examined sums ≤ 0, or
holds a positive maximum attained at the largest maximizing index. -/
def bwInv (ww : List Int) (n k : Nat) (s : Int) (r : Nat) : Prop :=
  0 ≤ s ∧
  ((s = 0 ∧ ∀ j, k ≤ j → j < n → ww.getD j 0 ≤ 0) ∨
    (0 < s ∧ k ≤ r ∧ r < n ∧ ww.getD r 0 = s ∧
      ∀ j, k ≤ j → j < n → ww.getD j 0 ≤ s ∧ (ww.getD j 0 = s → j ≤ r)))

/-- A weighted word is aligned when its recorded offset points at its own
text inside the (escaped) body. -/
def Aligned (body : Str) (t : TeaserWord) : Prop :=
  t.word ≠ [] ∧ (body.drop t.offset).take t.word.length = t.word

def paramKeys (ps : Params) : List Str := ps.map Prod.fst

/-- The query segment emitted by `renderURL` for one parameter. -/
def ampSeg (kv : Str × Option Str) : Str := kv.1 ++ '=' :: jsParamString kv.2

/-- The full query body emitted by `renderURL` (without the leading `?`). -/
def ampSegs (ps : Params) : Str := joinSep ['&'] (ps.map ampSeg)

/-- Well-formedness of a `UrlState` sufficient for `renderURL` to be
parsed back exactly: no structural delimiter occurs where it would change
the parse.  `parseURL` produces such states for scheme-bearing URLs whose
query segments all carry `=` (see `parseURL_good`). -/
def GoodState (s : UrlState) : Prop :=
  (∀ c ∈ s.protocol, ¬ c = ':' ∧ ¬ c = '/' ∧ ¬ c = '?' ∧ ¬ c = '#') ∧
  (∀ c ∈ s.host, ¬ c = ':' ∧ ¬ c = '/' ∧ ¬ c = '?' ∧ ¬ c = '#') ∧
  (∀ c ∈ s.port, ¬ c = '/' ∧ ¬ c = '?' ∧ ¬ c = '#') ∧
  (s.path = [] ∨ ∃ t, s.path = '/' :: t) ∧
  (∀ c ∈ s.path, ¬ c = '?' ∧ ¬ c = '#') ∧
  (∀ kv ∈ s.params, (∀ c ∈ kv.1, ¬ c = '&' ∧ ¬ c = '=' ∧ ¬ c = '#') ∧
    ∃ v, kv.2 = some v ∧ ∀ c ∈ v, ¬ c = '&' ∧ ¬ c = '=' ∧ ¬ c = '#') ∧
  (paramKeys s.params).Nodup

/-- The hypothesis under which the round trip is stated: the URL starts
with a (delimiter-free, non-empty) scheme followed by `://` — the model
cannot resolve scheme-less references against a base document. -/
def isSchemeUrl (u : Str) : Bool :=
  match splitFirst ':' u with
  | none => false
  | some (sch, r) =>
    decide (sch ≠ []) && sch.all (fun c => decide (¬ c = '/' ∧ ¬ c = '?' ∧ ¬ c = '#'))
      && decide (r.take 2 = ['/', '/'])

/-- Every non-empty query segment carries an `=` — the condition forced by
the counterexample (`=`-less segments parse to `undefined` and render as
the string `undefined`). -/
def allSegsWellFormed (u : Str) : Bool :=
  (splitAll '&' (stripLeadQ (anchorParse u).search)).all
    (fun seg => decide (seg = [] ∨ '=' ∈ seg))

/-! ## Helper lemmas: splitting and joining -/

theorem splitFirst_not_mem {c : Char} {s : Str} (h : c ∉ s) : splitFirst c s = none := by
  induction s with
  | nil => rfl
  | cons x xs ih =>
    have hx : ¬ x = c := by rintro rfl; exact h (List.mem_cons_self _ _)
    have hxs : c ∉ xs := fun hm => h (List.mem_cons_of_mem _ hm)
    simp [splitFirst, hx, ih hxs]

theorem splitFirst_append {c : Char} {a : Str} (b : Str) (h : c ∉ a) :
    splitFirst c (a ++ c :: b) = some (a, b) := by
  induction a with
  | nil => simp [splitFirst]
  | cons x xs ih =>
    have hx : ¬ x = c := by rintro rfl; exact h (List.mem_cons_self _ _)
    have hxs : c ∉ xs := fun hm => h (List.mem_cons_of_mem _ hm)
    simp [splitFirst, hx, ih hxs]

theorem splitFirst_eq_some {c : Char} {s a b : Str} (h : splitFirst c s = some (a, b)) :
    s = a ++ c :: b ∧ c ∉ a := by
  induction s generalizing a b with
  | nil => simp [splitFirst] at h
  | cons x xs ih =>
    by_cases hx : x = c
    · subst hx
      simp [splitFirst] at h
      obtain ⟨rfl, rfl⟩ := h
      simp
    · simp only [splitFirst, if_neg hx] at h
      cases hsf : splitFirst c xs with
      | none => rw [hsf] at h; simp at h
      | some ab =>
        rw [hsf] at h
        obtain ⟨a', b'⟩ := ab
        simp at h
        obtain ⟨rfl, rfl⟩ := h
        obtain ⟨rfl, hna⟩ := ih hsf
        refine ⟨by simp, ?_⟩
        intro hm
        rcases List.mem_cons.mp hm with h1 | h2
        · exact hx h1.symm
        · exact hna h2

theorem joinSep_cons (sep p q : Str) (ps : List Str) :
    joinSep sep (p :: q :: ps) = p ++ sep ++ joinSep sep (q :: ps) := rfl

theorem splitAll_ne_nil (c : Char) (s : Str) : splitAll c s ≠ [] := by
  induction s with
  | nil => simp [splitAll]
  | cons x xs ih =>
    by_cases hx : x = c
    · simp [splitAll, hx]
    · simp only [splitAll, if_neg hx]
      cases h : splitAll c xs <;> simp

theorem joinSep_splitAll (c : Char) (s : Str) : joinSep [c] (splitAll c s) = s := by
  induction s with
  | nil => rfl
  | cons x xs ih =>
    by_cases hx : x = c
    · subst hx
      have hsplit : splitAll x (x :: xs) = [] :: splitAll x xs := by simp [splitAll]
      obtain ⟨q, qs, hq⟩ := List.exists_cons_of_ne_nil (splitAll_ne_nil x xs)
      rw [hsplit, hq, joinSep_cons]
      rw [hq] at ih
      simpa using ih
    · obtain ⟨q, qs, hq⟩ := List.exists_cons_of_ne_nil (splitAll_ne_nil c xs)
      have hsplit : splitAll c (x :: xs) = (x :: q) :: qs := by simp [splitAll, hx, hq]
      rw [hsplit]
      rw [hq] at ih
      cases qs with
      | nil => exact congrArg (x :: ·) ih
      | cons r rs =>
        rw [joinSep_cons] at ih ⊢
        simpa using congrArg (x :: ·) ih

theorem not_mem_of_mem_splitAll {c : Char} {s p : Str} (h : p ∈ splitAll c s) : c ∉ p := by
  induction s generalizing p with
  | nil =>
    simp [splitAll] at h
    simp [h]
  | cons x xs ih =>
    by_cases hx : x = c
    · subst hx
      simp only [splitAll, if_pos rfl] at h
      rcases List.mem_cons.mp h with h1 | h2
      · simp [h1]
      · exact ih h2
    · obtain ⟨q, qs, hq⟩ := List.exists_cons_of_ne_nil (splitAll_ne_nil c xs)
      simp only [splitAll, if_neg hx, hq] at h
      rcases List.mem_cons.mp h with h1 | h2
      · subst h1
        intro hm
        rcases List.mem_cons.mp hm with h3 | h4
        · exact hx h3.symm
        · exact ih (hq ▸ List.mem_cons_self q qs) h4
      · exact ih (hq ▸ List.mem_cons_of_mem q h2)

theorem splitAll_sep_cons {c : Char} {p : Str} (t : Str) (h : c ∉ p) :
    splitAll c (p ++ c :: t) = p :: splitAll c t := by
  induction p with
  | nil => simp [splitAll]
  | cons x xs ih =>
    have hx : ¬ x = c := by rintro rfl; exact h (List.mem_cons_self _ _)
    have hxs : c ∉ xs := fun hm => h (List.mem_cons_of_mem _ hm)
    have hrec := ih hxs
    show splitAll c (x :: (xs ++ c :: t)) = (x :: xs) :: splitAll c t
    simp [splitAll, hx, hrec]

theorem splitAll_of_not_mem {c : Char} {p : Str} (h : c ∉ p) : splitAll c p = [p] := by
  induction p with
  | nil => rfl
  | cons x xs ih =>
    have hx : ¬ x = c := by rintro rfl; exact h (List.mem_cons_self _ _)
    have hxs : c ∉ xs := fun hm => h (List.mem_cons_of_mem _ hm)
    simp only [splitAll, if_neg hx, ih hxs]

theorem splitAll_joinSep {c : Char} {parts : List Str} (hne : parts ≠ [])
    (h : ∀ p ∈ parts, c ∉ p) : splitAll c (joinSep [c] parts) = parts := by
  induction parts with
  | nil => exact absurd rfl hne
  | cons p ps ih =>
    cases ps with
    | nil => exact splitAll_of_not_mem (h p (List.mem_cons_self _ _))
    | cons q qs =>
      rw [joinSep_cons]
      have hp : c ∉ p := h p (List.mem_cons_self _ _)
      have hrest : ∀ r ∈ q :: qs, c ∉ r := fun r hr => h r (List.mem_cons_of_mem _ hr)
      have := ih (by simp) hrest
      rw [List.append_assoc, List.singleton_append, splitAll_sep_cons _ hp, this]

theorem splitSeq2_ne_nil (c1 c2 : Char) : ∀ s : Str, splitSeq2 c1 c2 s ≠ []
  | [] => by simp [splitSeq2]
  | [x] => by simp [splitSeq2]
  | x :: y :: rest => by
    simp only [splitSeq2]
    split
    · simp
    · cases h : splitSeq2 c1 c2 (y :: rest) <;> simp

theorem joinSep_splitSeq2 (c1 c2 : Char) : ∀ s : Str, joinSep [c1, c2] (splitSeq2 c1 c2 s) = s
  | [] => rfl
  | [_] => rfl
  | x :: y :: rest => by
    by_cases hc : x = c1 ∧ y = c2
    · obtain ⟨rfl, rfl⟩ := hc
      have ih := joinSep_splitSeq2 x y rest
      have hsplit : splitSeq2 x y (x :: y :: rest) = [] :: splitSeq2 x y rest := by
        simp [splitSeq2]
      obtain ⟨q, qs, hq⟩ := List.exists_cons_of_ne_nil (splitSeq2_ne_nil x y rest)
      rw [hsplit, hq, joinSep_cons]
      rw [hq] at ih
      simpa using ih
    · have ih := joinSep_splitSeq2 c1 c2 (y :: rest)
      obtain ⟨q, qs, hq⟩ := List.exists_cons_of_ne_nil (splitSeq2_ne_nil c1 c2 (y :: rest))
      have hsplit : splitSeq2 c1 c2 (x :: y :: rest) = (x :: q) :: qs := by
        simp [splitSeq2, hc, hq]
      rw [hsplit]
      rw [hq] at ih
      cases qs with
      | nil => exact congrArg (x :: ·) ih
      | cons r rs =>
        rw [joinSep_cons] at ih ⊢
        simpa using congrArg (x :: ·) ih

theorem replaceFirst_of_not_mem {c : Char} {s : Str} (rep : Str) (h : c ∉ s) :
    replaceFirst c rep s = s := by
  induction s with
  | nil => rfl
  | cons x xs ih =>
    have hx : ¬ x = c := by rintro rfl; exact h (List.mem_cons_self _ _)
    have hxs : c ∉ xs := fun hm => h (List.mem_cons_of_mem _ hm)
    simp [replaceFirst, hx, ih hxs]

theorem replaceFirst_append {c : Char} {a : Str} (rep b : Str) (h : c ∉ a) :
    replaceFirst c rep (a ++ c :: b) = a ++ rep ++ b := by
  induction a with
  | nil => simp [replaceFirst]
  | cons x xs ih =>
    have hx : ¬ x = c := by rintro rfl; exact h (List.mem_cons_self _ _)
    have hxs : c ∉ xs := fun hm => h (List.mem_cons_of_mem _ hm)
    simp [replaceFirst, hx, ih hxs]

theorem takeWhile_append_all {p : Char → Bool} {a : Str} (b : Str) (ha : ∀ x ∈ a, p x) :
    (a ++ b).takeWhile p = a ++ b.takeWhile p := by
  induction a with
  | nil => simp
  | cons x xs ih =>
    have hx : p x := ha x (List.mem_cons_self _ _)
    simp [List.takeWhile, hx, ih (fun y hy => ha y (List.mem_cons_of_mem _ hy))]

theorem dropWhile_append_all {p : Char → Bool} {a : Str} (b : Str) (ha : ∀ x ∈ a, p x) :
    (a ++ b).dropWhile p = b.dropWhile p := by
  induction a with
  | nil => simp
  | cons x xs ih =>
    have hx : p x := ha x (List.mem_cons_self _ _)
    simp [List.dropWhile, hx, ih (fun y hy => ha y (List.mem_cons_of_mem _ hy))]

/-! ## Helper lemmas: the parameter map -/

theorem lookupParam_insertParam_self (ps : Params) (k : Str) (v : Option Str) :
    lookupParam (insertParam ps k v) k = some v := by
  induction ps with
  | nil => simp [insertParam, lookupParam]
  | cons kv rest ih =>
    obtain ⟨k', v'⟩ := kv
    by_cases hk : k' = k
    · simp [insertParam, hk, lookupParam]
    · simp [insertParam, hk, lookupParam, ih]

theorem lookupParam_insertParam_ne (ps : Params) {k k' : Str} (v : Option Str) (h : k' ≠ k) :
    lookupParam (insertParam ps k v) k' = lookupParam ps k' := by
  have hkk : ¬ k = k' := fun he => h he.symm
  induction ps with
  | nil => simp [insertParam, lookupParam, hkk]
  | cons kv rest ih =>
    obtain ⟨k₀, v₀⟩ := kv
    by_cases hk : k₀ = k
    · have hkk' : ¬ k₀ = k' := fun he => h (he ▸ hk)
      simp [insertParam, hk, lookupParam, hkk, hkk']
    · by_cases hk' : k₀ = k'
      · simp [insertParam, hk, lookupParam, hk', h]
      · simp [insertParam, hk, lookupParam, hk', ih]

theorem lookupParam_removeParam_self (ps : Params) (k : Str) :
    lookupParam (removeParam ps k) k = none := by
  induction ps with
  | nil => rfl
  | cons kv rest ih =>
    obtain ⟨k₀, v₀⟩ := kv
    by_cases hk : k₀ = k
    · simpa [removeParam, hk] using ih
    · simpa [removeParam, lookupParam, hk] using ih

theorem lookupParam_removeParam_ne (ps : Params) {k k' : Str} (h : k' ≠ k) :
    lookupParam (removeParam ps k) k' = lookupParam ps k' := by
  induction ps with
  | nil => rfl
  | cons kv rest ih =>
    obtain ⟨k₀, v₀⟩ := kv
    by_cases hk : k₀ = k
    · have hkk' : ¬ k₀ = k' := fun he => h (he ▸ hk)
      have hkk : ¬ k = k' := fun he => h he.symm
      simpa [removeParam, lookupParam, hk, hkk', hkk] using ih
    · by_cases hk' : k₀ = k'
      · simp [removeParam, lookupParam, hk, hk', h]
      · simpa [removeParam, lookupParam, hk, hk'] using ih

theorem mem_insertParam {ps : Params} {k : Str} {v : Option Str} {kv : Str × Option Str}
    (h : kv ∈ insertParam ps k v) : kv ∈ ps ∨ kv = (k, v) := by
  induction ps with
  | nil => simp [insertParam] at h; simp [h]
  | cons kv₀ rest ih =>
    obtain ⟨k₀, v₀⟩ := kv₀
    by_cases hk : k₀ = k
    · simp only [insertParam, if_pos hk] at h
      rcases List.mem_cons.mp h with h1 | h2
      · right; exact h1
      · left; exact List.mem_cons_of_mem _ h2
    · simp only [insertParam, if_neg hk] at h
      rcases List.mem_cons.mp h with h1 | h2
      · left; simp [h1]
      · rcases ih h2 with h3 | h3
        · left; exact List.mem_cons_of_mem _ h3
        · right; exact h3

example : splitAll '&' "a=1&&b".data = ["a=1".data, [], ['b']] := by decide

example : (parseURL "http://example.com:80/dir/page?a=1&b#frag".data).params
    = [(['a'], some ['1']), (['b'], none)] := by decide

example : (parseURL "http://example.com/dir/page?a=1#frag".data).path = "/dir/page".data := by decide

example : renderURL (parseURL "http://example.com/p?foo".data)
    = "http://example.com/p?foo=undefined".data := by decide

/-! ## Helper lemmas: sliding-window sums and the backwards maximum scan -/

theorem windowSum_eq_take (w : List Int) (ws j : Nat) :
    windowSum w ws j = (w.take (j + ws)).sum - (w.take j).sum := by
  unfold windowSum
  rw [List.take_add, List.sum_append]
  ring

theorem windowSum_succ (w : List Int) (ws i : Nat) (h : i + ws < w.length) :
    windowSum w ws (i + 1) = windowSum w ws i - w.getD i 0 + w.getD (i + ws) 0 := by
  have hi : i < w.length := Nat.lt_of_le_of_lt (Nat.le_add_right i ws) h
  have e1 : (w.take (i + 1)).sum = (w.take i).sum + w.getD i 0 := by
    rw [List.sum_take_succ w i hi, List.getD_eq_getElem w 0 hi]
  have e2 : (w.take (i + 1 + ws)).sum = (w.take (i + ws)).sum + w.getD (i + ws) 0 := by
    have he : i + 1 + ws = (i + ws) + 1 := by omega
    rw [he, List.sum_take_succ w (i + ws) h, List.getD_eq_getElem w 0 h]
  rw [windowSum_eq_take, windowSum_eq_take, e1, e2]
  ring

theorem windowWeights_fold_spec (w : List Int) (ws : Nat) (hws : ws ≤ w.length) :
    ∀ k, k ≤ w.length - ws →
      (List.range k).foldl
        (fun (acc : List Int × Int) i =>
          (acc.1 ++ [acc.2 - w.getD i 0 + w.getD (i + ws) 0],
            acc.2 - w.getD i 0 + w.getD (i + ws) 0))
        ([(w.take ws).sum], (w.take ws).sum)
      = ((List.range (k + 1)).map (fun i => windowSum w ws i), windowSum w ws k) := by
  intro k
  induction k with
  | zero =>
    intro _
    simp [windowSum, List.range_succ]
  | succ k ih =>
    intro hk
    have hk' : k ≤ w.length - ws := Nat.le_of_succ_le hk
    have hlt : k + ws < w.length := by omega
    rw [List.range_succ, List.foldl_append, ih hk']
    have hcur := (windowSum_succ w ws k hlt).symm
    simp only [List.foldl_cons, List.foldl_nil, hcur]
    rw [List.range_succ (n := k + 1), List.map_append]
    simp

theorem windowWeights_eq (w : List Int) (ws : Nat) (hws : ws ≤ w.length) :
    windowWeights w ws = (List.range (w.length - ws + 1)).map (fun i => windowSum w ws i) := by
  unfold windowWeights
  rw [windowWeights_fold_spec w ws hws (w.length - ws) le_rfl]

theorem windowWeights_length (w : List Int) (ws : Nat) (hws : ws ≤ w.length) :
    (windowWeights w ws).length = w.length - ws + 1 := by
  rw [windowWeights_eq w ws hws]
  simp

theorem windowWeights_getD (w : List Int) (ws : Nat) (hws : ws ≤ w.length) (j : Nat)
    (hj : j < w.length - ws + 1) :
    (windowWeights w ws).getD j 0 = windowSum w ws j := by
  rw [windowWeights_eq w ws hws]
  rw [List.getD_eq_getElem _ 0 (by simpa using hj)]
  simp

theorem windowSum_pos (w : List Int) (ws j : Nat) (hws : 0 < ws) (hj : j + ws ≤ w.length)
    (hpos : ∀ x ∈ w, 2 ≤ x) : 0 < windowSum w ws j := by
  unfold windowSum
  apply List.sum_pos
  · intro x hx
    have hxw : x ∈ w := List.mem_of_mem_drop (List.mem_of_mem_take hx)
    exact lt_of_lt_of_le (by norm_num) (hpos x hxw)
  · have hlen : ((w.drop j).take ws).length = ws := by
      rw [List.length_take, List.length_drop]
      omega
    intro hnil
    rw [hnil] at hlen
    simp at hlen
    omega

theorem bestWindowAux_inv (ww : List Int) (n : Nat) :
    ∀ k, k ≤ n → ∀ s r, bwInv ww n k s r →
      bwInv ww n 0 (bestWindowAux ww ((List.range k).reverse) (s, r)).1
        (bestWindowAux ww ((List.range k).reverse) (s, r)).2 := by
  intro k
  induction k with
  | zero =>
    intro _ s r h
    simpa [bestWindowAux] using h
  | succ k ih =>
    intro hk s r hinv
    have hrev : (List.range (k + 1)).reverse = k :: (List.range k).reverse := by
      rw [List.range_succ, List.reverse_append]
      simp
    rw [hrev]
    obtain ⟨hnn, hcase⟩ := hinv
    by_cases hgt : ww.getD k 0 > s
    · have hstep : bestWindowAux ww (k :: (List.range k).reverse) (s, r)
          = bestWindowAux ww ((List.range k).reverse) (ww.getD k 0, k) := by
        show bestWindowAux ww ((List.range k).reverse)
            (if ww.getD k 0 > s then (ww.getD k 0, k) else (s, r))
          = bestWindowAux ww ((List.range k).reverse) (ww.getD k 0, k)
        rw [if_pos hgt]
      rw [hstep]
      apply ih (Nat.le_of_succ_le hk)
      refine ⟨by omega, Or.inr ⟨by omega, le_refl k, hk, rfl, ?_⟩⟩
      intro j hj1 hj2
      rcases Nat.eq_or_lt_of_le hj1 with rfl | hj3
      · exact ⟨le_refl _, fun _ => le_refl _⟩
      · rcases hcase with ⟨hz, hall⟩ | ⟨hp, _, _, _, hall⟩
        · have hj0 := hall j hj3 hj2
          exact ⟨by omega, fun he => by omega⟩
        · have hj0 := (hall j hj3 hj2).1
          exact ⟨by omega, fun he => by omega⟩
    · have hstep : bestWindowAux ww (k :: (List.range k).reverse) (s, r)
          = bestWindowAux ww ((List.range k).reverse) (s, r) := by
        show bestWindowAux ww ((List.range k).reverse)
            (if ww.getD k 0 > s then (ww.getD k 0, k) else (s, r))
          = bestWindowAux ww ((List.range k).reverse) (s, r)
        rw [if_neg hgt]
      rw [hstep]
      apply ih (Nat.le_of_succ_le hk)
      push_neg at hgt
      refine ⟨hnn, ?_⟩
      rcases hcase with ⟨hz, hall⟩ | ⟨hp, hle, hlt, heq, hall⟩
      · refine Or.inl ⟨hz, fun j hj1 hj2 => ?_⟩
        rcases Nat.eq_or_lt_of_le hj1 with rfl | hj3
        · omega
        · exact hall j hj3 hj2
      · refine Or.inr ⟨hp, Nat.le_of_succ_le hle, hlt, heq, fun j hj1 hj2 => ?_⟩
        rcases Nat.eq_or_lt_of_le hj1 with rfl | hj3
        · exact ⟨hgt, fun _ => by omega⟩
        · exact hall j hj3 hj2

theorem bestWindowAux_max (ww : List Int) (hpos : ∀ x ∈ ww, 0 < x) (hne : ww ≠ []) :
    (bestWindowAux ww ((List.range ww.length).reverse) (0, 0)).2 < ww.length ∧
    ∀ j, j < ww.length →
      ww.getD j 0 ≤ ww.getD (bestWindowAux ww ((List.range ww.length).reverse) (0, 0)).2 0 ∧
      (ww.getD j 0 = ww.getD (bestWindowAux ww ((List.range ww.length).reverse) (0, 0)).2 0 →
        j ≤ (bestWindowAux ww ((List.range ww.length).reverse) (0, 0)).2) := by
  have h0 : bwInv ww ww.length ww.length 0 0 := by
    refine ⟨le_refl 0, Or.inl ⟨rfl, ?_⟩⟩
    intro j hj1 hj2
    omega
  have hres := bestWindowAux_inv ww ww.length ww.length le_rfl 0 0 h0
  have hlen : 0 < ww.length := List.length_pos.mpr hne
  obtain ⟨hnn, hcase⟩ := hres
  rcases hcase with ⟨hz, hall⟩ | ⟨hp, hle, hlt, heq, hall⟩
  · exfalso
    have h00 : ww.getD 0 0 ≤ 0 := hall 0 (Nat.zero_le 0) hlen
    have hmem : ww.getD 0 0 ∈ ww := by
      rw [List.getD_eq_getElem ww 0 hlen]
      exact List.getElem_mem hlen
    have := hpos _ hmem
    omega
  · refine ⟨hlt, ?_⟩
    intro j hj
    rw [heq]
    exact hall j (Nat.zero_le j) hj

/-! ## Helper lemmas: the teaser scan -/

theorem stepWord_pos (stem : Str → Str) (sterms : List Str) (st : TeaserScan) (v : Int)
    (w : Str) (hw : 0 < w.length) :
    stepWord stem sterms (st, v) w
      = ({ weighted := st.weighted ++ [⟨w, if termMatches stem sterms w then 40 else v, st.index⟩]
           found := st.found || termMatches stem sterms w
           index := st.index + w.length + 1 }, 2) := by
  simp [stepWord, hw]

theorem stepWord_zero (stem : Str → Str) (sterms : List Str) (st : TeaserScan) (v : Int)
    (w : Str) (hw : ¬ 0 < w.length) :
    stepWord stem sterms (st, v) w = ({ st with index := st.index + w.length + 1 }, v) := by
  simp [stepWord, hw]

theorem foldWords_weights (stem : Str → Str) (sterms : List Str) :
    ∀ (words : List Str) (acc : TeaserScan × Int),
      (∀ t ∈ acc.1.weighted, 2 ≤ t.weight) → 2 ≤ acc.2 →
      (∀ t ∈ (words.foldl (stepWord stem sterms) acc).1.weighted, 2 ≤ t.weight) ∧
        2 ≤ (words.foldl (stepWord stem sterms) acc).2 := by
  intro words
  induction words with
  | nil =>
    intro acc h1 h2
    exact ⟨h1, h2⟩
  | cons w rest ih =>
    intro acc h1 h2
    obtain ⟨st, v⟩ := acc
    rw [List.foldl_cons]
    by_cases hw : 0 < w.length
    · rw [stepWord_pos stem sterms st v w hw]
      apply ih
      · intro t ht
        rcases List.mem_append.mp ht with hm | hm
        · exact h1 t hm
        · have ht2 : t = ⟨w, if termMatches stem sterms w then 40 else v, st.index⟩ := by
            simpa using hm
          subst ht2
          by_cases hm2 : termMatches stem sterms w
          · simp [hm2]
          · simpa [hm2] using h2
      · norm_num
    · rw [stepWord_zero stem sterms st v w hw]
      exact ih _ h1 h2

theorem foldSentences_weights (stem : Str → Str) (sterms : List Str) :
    ∀ (sents : List Str) (st : TeaserScan),
      (∀ t ∈ st.weighted, 2 ≤ t.weight) →
      ∀ t ∈ (sents.foldl (stepSentence stem sterms) st).weighted, 2 ≤ t.weight := by
  intro sents
  induction sents with
  | nil =>
    intro st h
    exact h
  | cons s rest ih =>
    intro st h
    rw [List.foldl_cons]
    apply ih
    unfold stepSentence
    exact (foldWords_weights stem sterms (splitAll ' ' s) (st, 8) h (by norm_num)).1

/-- Every weighted word of the teaser scan carries weight at least 2
(normal words weigh 2, sentence starters 8, search-term matches 40). -/
theorem teaserScan_weights (stem : Str → Str) (terms : List Str) (body : Str) :
    ∀ t ∈ (teaserScan stem terms body).weighted, 2 ≤ t.weight := by
  unfold teaserScan
  apply foldSentences_weights
  intro t ht
  simp at ht

theorem foldWords_aligned (stem : Str → Str) (sterms : List Str) (body : Str) :
    ∀ (words : List Str) (st : TeaserScan) (v : Int) (tail : Str),
      body.drop st.index = joinSep [' '] words ++ tail →
      (∀ t ∈ st.weighted, Aligned body t) →
      (∀ t ∈ ((words.foldl (stepWord stem sterms) (st, v)).1).weighted, Aligned body t) ∧
        body.drop ((words.foldl (stepWord stem sterms) (st, v)).1).index
          = (if words = [] then tail else tail.drop 1) := by
  intro words
  induction words with
  | nil =>
    intro st v tail hdrop hprev
    refine ⟨hprev, ?_⟩
    simpa [joinSep] using hdrop
  | cons w rest ih =>
    intro st v tail hdrop hprev
    have hd : ∀ m, body.drop (st.index + m) = (body.drop st.index).drop m := by
      intro m
      rw [List.drop_drop]
    rw [List.foldl_cons]
    by_cases hw : 0 < w.length
    · rw [stepWord_pos stem sterms st v w hw]
      have hstart : ∃ t', body.drop st.index = w ++ t'
          ∧ body.drop (st.index + (w.length + 1)) = t'.drop 1 := by
        cases rest with
        | nil =>
          refine ⟨tail, ?_, ?_⟩
          · simpa [joinSep] using hdrop
          · rw [hd, hdrop]
            have h1 : joinSep [' '] [w] ++ tail = w ++ tail := by simp [joinSep]
            rw [h1, ← List.drop_drop, List.drop_left]
        | cons r rs =>
          refine ⟨' ' :: (joinSep [' '] (r :: rs) ++ tail), ?_, ?_⟩
          · rw [hdrop, joinSep_cons]
            simp
          · rw [hd, hdrop, joinSep_cons]
            have : (w ++ [' '] ++ joinSep [' '] (r :: rs)) ++ tail
                = (w ++ [' ']) ++ (joinSep [' '] (r :: rs) ++ tail) := by
              simp [List.append_assoc]
            rw [this]
            have hlen : w.length + 1 = (w ++ [' ']).length := by simp
            rw [hlen, List.drop_left]
            simp
      obtain ⟨t', ht1, ht2⟩ := hstart
      have hal : ∀ t ∈ (st.weighted
          ++ [(⟨w, if termMatches stem sterms w then 40 else v, st.index⟩ : TeaserWord)]),
          Aligned body t := by
        intro t ht
        rcases List.mem_append.mp ht with hm | hm
        · exact hprev t hm
        · have ht3 : t = ⟨w, if termMatches stem sterms w then 40 else v, st.index⟩ := by
            simpa using hm
          subst ht3
          refine ⟨by simpa using List.length_pos.mp hw, ?_⟩
          show (body.drop st.index).take w.length = w
          rw [ht1, List.take_left]
      cases rest with
      | nil =>
        rw [List.foldl_nil]
        refine ⟨hal, ?_⟩
        show body.drop (st.index + w.length + 1) = tail.drop 1
        rw [Nat.add_assoc]
        rw [ht2]
        have : t' = tail := by
          have h1 : body.drop st.index = w ++ t' := ht1
          have h2 : body.drop st.index = w ++ tail := by simpa [joinSep] using hdrop
          have := h1.symm.trans h2
          exact List.append_cancel_left this
        rw [this]
      | cons r rs =>
        have hdrop1 : body.drop (st.index + w.length + 1)
            = joinSep [' '] (r :: rs) ++ tail := by
          rw [Nat.add_assoc, ht2]
          have h2 : body.drop st.index = w ++ (' ' :: (joinSep [' '] (r :: rs) ++ tail)) := by
            rw [hdrop, joinSep_cons]
            simp
          have := ht1.symm.trans h2
          have ht' := List.append_cancel_left this
          rw [ht']
          simp
        obtain ⟨ih1, ih2⟩ := ih
          { weighted := st.weighted
              ++ [⟨w, if termMatches stem sterms w then 40 else v, st.index⟩]
            found := st.found || termMatches stem sterms w
            index := st.index + w.length + 1 } 2 tail hdrop1 hal
        refine ⟨ih1, ?_⟩
        simpa using ih2
    · rw [stepWord_zero stem sterms st v w hw]
      have hwnil : w = [] := List.length_eq_zero.mp (by omega)
      subst hwnil
      cases rest with
      | nil =>
        rw [List.foldl_nil]
        refine ⟨hprev, ?_⟩
        show body.drop (st.index + ([] : Str).length + 1) = tail.drop 1
        have h2 : body.drop st.index = tail := by simpa [joinSep] using hdrop
        simp only [List.length_nil, Nat.add_zero]
        rw [hd 1, h2]
      | cons r rs =>
        have hdrop1 : body.drop (st.index + ([] : Str).length + 1)
            = joinSep [' '] (r :: rs) ++ tail := by
          have h2 : body.drop st.index = ' ' :: (joinSep [' '] (r :: rs) ++ tail) := by
            rw [hdrop, joinSep_cons]
            simp
          simp only [List.length_nil, Nat.add_zero]
          rw [hd 1, h2]
          simp
        obtain ⟨ih1, ih2⟩ := ih { st with index := st.index + ([] : Str).length + 1 } v tail
          hdrop1 hprev
        refine ⟨ih1, ?_⟩
        simpa using ih2

theorem stepSentence_eq (stem : Str → Str) (sterms : List Str) (st : TeaserScan) (s : Str) :
    stepSentence stem sterms st s
      = { ((splitAll ' ' s).foldl (stepWord stem sterms) (st, 8)).1 with
          index := ((splitAll ' ' s).foldl (stepWord stem sterms) (st, 8)).1.index + 1 } := rfl

theorem foldSentences_aligned (stem : Str → Str) (sterms : List Str) (body : Str) :
    ∀ (sents : List Str) (st : TeaserScan),
      (sents ≠ [] → body.drop st.index = joinSep ['.', ' '] sents) →
      (∀ t ∈ st.weighted, Aligned body t) →
      ∀ t ∈ (sents.foldl (stepSentence stem sterms) st).weighted, Aligned body t := by
  intro sents
  induction sents with
  | nil =>
    intro st _ hprev
    exact hprev
  | cons s ss ih =>
    intro st hdrop hprev
    rw [List.foldl_cons]
    cases ss with
    | nil =>
      have hdrop0 : body.drop st.index = joinSep [' '] (splitAll ' ' s) ++ [] := by
        rw [joinSep_splitAll]
        simpa using hdrop (by simp)
      have h := foldWords_aligned stem sterms body (splitAll ' ' s) st 8 [] hdrop0 hprev
      rw [List.foldl_nil]
      rw [stepSentence_eq]
      exact h.1
    | cons s2 ss2 =>
      have hdj : joinSep ['.', ' '] (s :: s2 :: ss2)
          = s ++ '.' :: ' ' :: joinSep ['.', ' '] (s2 :: ss2) := by
        rw [joinSep_cons]
        simp
      have hdrop0 : body.drop st.index
          = joinSep [' '] (splitAll ' ' s) ++ ('.' :: ' ' :: joinSep ['.', ' '] (s2 :: ss2)) := by
        rw [joinSep_splitAll, hdrop (by simp), hdj]
      obtain ⟨h1, h2⟩ :=
        foldWords_aligned stem sterms body (splitAll ' ' s) st 8 _ hdrop0 hprev
      rw [if_neg (splitAll_ne_nil ' ' s)] at h2
      apply ih
      · intro _
        rw [stepSentence_eq]
        show body.drop
            (((splitAll ' ' s).foldl (stepWord stem sterms) (st, 8)).1.index + 1) = _
        rw [← List.drop_drop, h2]
        simp
      · rw [stepSentence_eq]
        exact h1

/-- Every weighted word of the teaser scan is aligned: its offset points at
its own text in the body, across sentence boundaries included. -/
theorem teaserScan_aligned (stem : Str → Str) (terms : List Str) (body : Str) :
    ∀ t ∈ (teaserScan stem terms body).weighted, Aligned body t := by
  unfold teaserScan
  apply foldSentences_aligned
  · intro _
    show body.drop 0 = joinSep ['.', ' '] (splitSeq2 '.' ' ' body)
    rw [List.drop_zero, joinSep_splitSeq2]
  · intro t ht
    simp at ht

theorem selectedWindow_spec (wts : List Int) (ws : Nat) (hws_pos : 0 < ws)
    (hws_le : ws ≤ wts.length) (hpos2 : ∀ x ∈ wts, 2 ≤ x) :
    selectedWindowIndex (windowWeights wts ws) true + ws ≤ wts.length ∧
    ∀ j, j + ws ≤ wts.length →
      windowSum wts ws j ≤ windowSum wts ws (selectedWindowIndex (windowWeights wts ws) true) ∧
      (windowSum wts ws j
          = windowSum wts ws (selectedWindowIndex (windowWeights wts ws) true)
        → j ≤ selectedWindowIndex (windowWeights wts ws) true) := by
  have hwwlen := windowWeights_length wts ws hws_le
  have hwwne : windowWeights wts ws ≠ [] := by
    intro h
    rw [h] at hwwlen
    simp at hwwlen
  have hwwpos : ∀ x ∈ windowWeights wts ws, 0 < x := by
    rw [windowWeights_eq wts ws hws_le]
    intro x hx
    obtain ⟨i, hi, rfl⟩ := List.mem_map.mp hx
    have hi' : i < wts.length - ws + 1 := List.mem_range.mp hi
    exact windowSum_pos wts ws i hws_pos (by omega) hpos2
  obtain ⟨hlt, hmax⟩ := bestWindowAux_max (windowWeights wts ws) hwwpos hwwne
  have hsel_eq : selectedWindowIndex (windowWeights wts ws) true
      = (bestWindowAux (windowWeights wts ws)
          ((List.range (windowWeights wts ws).length).reverse) (0, 0)).2 := by
    simp [selectedWindowIndex]
  rw [hsel_eq]
  have hsellt : (bestWindowAux (windowWeights wts ws)
      ((List.range (windowWeights wts ws).length).reverse) (0, 0)).2
        < wts.length - ws + 1 := by
    rw [← hwwlen]
    exact hlt
  have hgsel : (windowWeights wts ws).getD
      (bestWindowAux (windowWeights wts ws)
        ((List.range (windowWeights wts ws).length).reverse) (0, 0)).2 0
      = windowSum wts ws (bestWindowAux (windowWeights wts ws)
        ((List.range (windowWeights wts ws).length).reverse) (0, 0)).2 :=
    windowWeights_getD wts ws hws_le _ hsellt
  constructor
  · omega
  · intro j hj
    have hjlt : j < (windowWeights wts ws).length := by omega
    have hgj : (windowWeights wts ws).getD j 0 = windowSum wts ws j :=
      windowWeights_getD wts ws hws_le j (by omega)
    obtain ⟨hle, heq⟩ := hmax j hjlt
    rw [hgj, hgsel] at hle heq
    exact ⟨hle, heq⟩

/-! ## Claim theorems -/

/-- C1: In `makeTeaser`, when at least one query-term match was found in
the body, the selected window start maximizes the weight sum over all
contiguous windows of `window_size` words, and among equal maxima it is
the highest starting index; when no match was found, window 0 is
selected. -/
theorem makeTeaser_window_selection (stem : Str → Str) (terms : List Str) (body : Str)
    (twc : Nat) (htwc : 0 < twc) (hne : (teaserScan stem terms body).weighted ≠ []) :
    ((teaserScan stem terms body).found = true →
      teaserSelectedWindow stem terms body twc + teaserWindowSize stem terms body twc
          ≤ (teaserScan stem terms body).weighted.length ∧
      ∀ j, j + teaserWindowSize stem terms body twc
          ≤ (teaserScan stem terms body).weighted.length →
        windowSum ((teaserScan stem terms body).weighted.map (fun t => t.weight))
            (teaserWindowSize stem terms body twc) j
          ≤ windowSum ((teaserScan stem terms body).weighted.map (fun t => t.weight))
              (teaserWindowSize stem terms body twc)
              (teaserSelectedWindow stem terms body twc) ∧
        (windowSum ((teaserScan stem terms body).weighted.map (fun t => t.weight))
              (teaserWindowSize stem terms body twc) j
            = windowSum ((teaserScan stem terms body).weighted.map (fun t => t.weight))
                (teaserWindowSize stem terms body twc)
                (teaserSelectedWindow stem terms body twc)
          → j ≤ teaserSelectedWindow stem terms body twc))
    ∧ ((teaserScan stem terms body).found = false →
        teaserSelectedWindow stem terms body twc = 0) := by
  constructor
  · intro hfound
    have hn : 0 < (teaserScan stem terms body).weighted.length := List.length_pos.mpr hne
    have hws_pos : 0 < teaserWindowSize stem terms body twc := lt_min hn htwc
    have hws_le : teaserWindowSize stem terms body twc
        ≤ ((teaserScan stem terms body).weighted.map (fun t => t.weight)).length := by
      rw [List.length_map]
      exact min_le_left _ _
    have hpos2 : ∀ x ∈ (teaserScan stem terms body).weighted.map (fun t => t.weight),
        2 ≤ x := by
      intro x hx
      obtain ⟨t, ht, rfl⟩ := List.mem_map.mp hx
      exact teaserScan_weights stem terms body t ht
    have hspec := selectedWindow_spec _ _ hws_pos hws_le hpos2
    have hteq : teaserSelectedWindow stem terms body twc
        = selectedWindowIndex
            (windowWeights ((teaserScan stem terms body).weighted.map (fun t => t.weight))
              (teaserWindowSize stem terms body twc)) true := by
      unfold teaserSelectedWindow teaserWindowWeights
      rw [hfound]
    rw [hteq]
    simpa using hspec
  · intro hfound
    unfold teaserSelectedWindow selectedWindowIndex
    rw [hfound]
    simp

theorem makeTeaser_window_selection_witness :
    0 < 2 ∧ (teaserScan id [['a']] "ax by".data).weighted ≠ [] ∧
    (((teaserScan id [['a']] "ax by".data).found = true →
      teaserSelectedWindow id [['a']] "ax by".data 2 + teaserWindowSize id [['a']] "ax by".data 2
          ≤ (teaserScan id [['a']] "ax by".data).weighted.length ∧
      ∀ j, j + teaserWindowSize id [['a']] "ax by".data 2
          ≤ (teaserScan id [['a']] "ax by".data).weighted.length →
        windowSum ((teaserScan id [['a']] "ax by".data).weighted.map (fun t => t.weight))
            (teaserWindowSize id [['a']] "ax by".data 2) j
          ≤ windowSum ((teaserScan id [['a']] "ax by".data).weighted.map (fun t => t.weight))
              (teaserWindowSize id [['a']] "ax by".data 2)
              (teaserSelectedWindow id [['a']] "ax by".data 2) ∧
        (windowSum ((teaserScan id [['a']] "ax by".data).weighted.map (fun t => t.weight))
              (teaserWindowSize id [['a']] "ax by".data 2) j
            = windowSum ((teaserScan id [['a']] "ax by".data).weighted.map (fun t => t.weight))
                (teaserWindowSize id [['a']] "ax by".data 2)
                (teaserSelectedWindow id [['a']] "ax by".data 2)
          → j ≤ teaserSelectedWindow id [['a']] "ax by".data 2))
    ∧ ((teaserScan id [['a']] "ax by".data).found = false →
        teaserSelectedWindow id [['a']] "ax by".data 2 = 0)) :=
  ⟨by decide, by decide,
    makeTeaser_window_selection id [['a']] "ax by".data 2 (by decide) (by decide)⟩

/-- C8: every weighted word recorded by `makeTeaser` aligns exactly with
the escaped body (`body.substring(offset, offset + text.length)` equals
the text, across sentence boundaries included), and only non-empty words
are recorded, so sentences consisting solely of empty tokens contribute no
weighted words. -/
theorem makeTeaser_offsets_align (stem : Str → Str) (terms : List Str) (body : Str) :
    ∀ t ∈ (teaserScan stem terms body).weighted,
      t.word ≠ [] ∧ (body.drop t.offset).take t.word.length = t.word := by
  intro t ht
  exact teaserScan_aligned stem terms body t ht

theorem makeTeaser_offsets_align_witness :
    (⟨"cd".data, 8, 4⟩ : TeaserWord) ∈ (teaserScan id [] "ab. cd".data).weighted ∧
    ((⟨"cd".data, 8, 4⟩ : TeaserWord).word ≠ [] ∧
      (("ab. cd".data).drop (⟨"cd".data, 8, 4⟩ : TeaserWord).offset).take
          (⟨"cd".data, 8, 4⟩ : TeaserWord).word.length
        = (⟨"cd".data, 8, 4⟩ : TeaserWord).word) :=
  ⟨by decide, makeTeaser_offsets_align id [] "ab. cd".data ⟨"cd".data, 8, 4⟩ (by decide)⟩

theorem doSearch_cached (s : SearchSession) (t : Str) (h : s.current_searchterm = t) :
    doSearch s t = s := by
  unfold doSearch
  rw [if_pos h]

theorem doSearch_current (s : SearchSession) (t : Str) :
    (doSearch s t).current_searchterm = t := by
  unfold doSearch
  by_cases h : s.current_searchterm = t
  · rw [if_pos h]
    exact h
  · rw [if_neg h]
    cases hidx : s.searchindex <;> simp [hidx]

theorem doSearch_lookups_new (s : SearchSession) (t : Str) (h1 : s.current_searchterm ≠ t)
    (h2 : s.searchindex ≠ none) :
    (doSearch s t).lookups = s.lookups ++ [t] := by
  unfold doSearch
  rw [if_neg h1]
  cases hidx : s.searchindex with
  | none => exact absurd hidx h2
  | some u => simp [hidx]

/-- C9: a second `doSearch` with the same term is a no-op (cached current
term short-circuits), so a fresh search executed twice performs exactly
one `searchindex.search` call. -/
theorem doSearch_twice_once (st : SearchSession) (t : Str) :
    doSearch (doSearch st t) t = doSearch st t ∧
    (st.searchindex ≠ none → st.current_searchterm ≠ t →
      (doSearch (doSearch st t) t).lookups = st.lookups ++ [t]) := by
  have hsecond := doSearch_cached (doSearch st t) t (doSearch_current st t)
  refine ⟨hsecond, fun h2 h1 => ?_⟩
  rw [hsecond, doSearch_lookups_new st t h1 h2]

theorem doSearch_twice_once_witness :
    (doSearch (doSearch ⟨[], some (), []⟩ ['a']) ['a']).lookups = [['a']] := by
  have h := (doSearch_twice_once ⟨[], some (), []⟩ ['a']).2 (by simp) (by simp)
  simpa using h

/-- C10: `doSearch` caches the term before checking the index handle, so a
call made while the index is `null` records the term without any lookup,
and a repeat call after the index loads returns early — no lookup is ever
executed for that pair of calls. -/
theorem doSearch_null_index_swallows (st : SearchSession) (t : Str) (idx : Unit)
    (h : st.searchindex = none) :
    (doSearch st t).current_searchterm = t ∧
    (doSearch st t).lookups = st.lookups ∧
    doSearch { doSearch st t with searchindex := some idx } t
      = { doSearch st t with searchindex := some idx } := by
  have hcur := doSearch_current st t
  have hlook : (doSearch st t).lookups = st.lookups := by
    unfold doSearch
    by_cases hc : st.current_searchterm = t
    · rw [if_pos hc]
    · rw [if_neg hc]
      simp [h]
  refine ⟨hcur, hlook, ?_⟩
  apply doSearch_cached
  simpa using hcur

theorem doSearch_null_index_swallows_witness :
    (⟨[], none, []⟩ : SearchSession).searchindex = none ∧
    ((doSearch ⟨[], none, []⟩ ['a']).current_searchterm = ['a'] ∧
      (doSearch ⟨[], none, []⟩ ['a']).lookups = (⟨[], none, []⟩ : SearchSession).lookups ∧
      doSearch { doSearch ⟨[], none, []⟩ ['a'] with searchindex := some () } ['a']
        = { doSearch ⟨[], none, []⟩ ['a'] with searchindex := some () }) :=
  ⟨rfl, doSearch_null_index_swallows ⟨[], none, []⟩ ['a'] () rfl⟩

/-- C3: `setSearchUrlParameters` commits via history push exactly when the
action is `push`, or the action is `push_if_new_search_else_replace` and
the pre-existing URL has no `search` parameter; it commits via history
replace exactly when the action is `replace`, or it is
`push_if_new_search_else_replace` and a `search` parameter already
exists. -/
theorem setSearchUrlParameters_commit (href term action : Str) :
    ((setSearchUrlParameters href term action).map Prod.fst = some HistOp.push ↔
      (action = pushAction ∨
        (action = pifAction ∧ ¬ hasKey (parseURL href).params urlSearchParam = true))) ∧
    ((setSearchUrlParameters href term action).map Prod.fst = some HistOp.replace ↔
      (action = replaceAction ∨
        (action = pifAction ∧ hasKey (parseURL href).params urlSearchParam = true))) := by
  have hpr : pushAction ≠ replaceAction := by decide
  have hppif : pushAction ≠ pifAction := by decide
  have hrpif : replaceAction ≠ pifAction := by decide
  by_cases ha : action = pushAction
  · subst ha
    have hcond : pushAction = pushAction ∨
        (pushAction = pifAction ∧ ¬ hasKey (parseURL href).params urlSearchParam) :=
      Or.inl rfl
    simp only [setSearchUrlParameters, if_pos hcond]
    simp [hpr, hppif]
  · by_cases hb : action = replaceAction
    · subst hb
      have hcond1 : ¬ (replaceAction = pushAction ∨
          (replaceAction = pifAction ∧ ¬ hasKey (parseURL href).params urlSearchParam)) := by
        rintro (h | ⟨h, _⟩)
        · exact hpr h.symm
        · exact hrpif h
      have hcond2 : replaceAction = replaceAction ∨
          (replaceAction = pifAction ∧ ¬ ¬ hasKey (parseURL href).params urlSearchParam) :=
        Or.inl rfl
      simp only [setSearchUrlParameters, if_neg hcond1, if_pos hcond2]
      simp [hpr.symm, hrpif]
    · by_cases hc : action = pifAction
      · subst hc
        by_cases hfs : hasKey (parseURL href).params urlSearchParam
        · have hcond1 : ¬ (pifAction = pushAction ∨
              (pifAction = pifAction ∧ ¬ hasKey (parseURL href).params urlSearchParam)) := by
            rintro (h | ⟨_, h⟩)
            · exact hppif h.symm
            · exact h hfs
          have hcond2 : pifAction = replaceAction ∨
              (pifAction = pifAction ∧ ¬ ¬ hasKey (parseURL href).params urlSearchParam) :=
            Or.inr ⟨rfl, not_not_intro hfs⟩
          simp only [setSearchUrlParameters, if_neg hcond1, if_pos hcond2]
          simp [hppif.symm, hrpif.symm, hfs]
        · have hcond1 : pifAction = pushAction ∨
              (pifAction = pifAction ∧ ¬ hasKey (parseURL href).params urlSearchParam) :=
            Or.inr ⟨rfl, hfs⟩
          simp only [setSearchUrlParameters, if_pos hcond1]
          simp [hppif.symm, hrpif.symm, hfs]
      · have hcond1 : ¬ (action = pushAction ∨
            (action = pifAction ∧ ¬ hasKey (parseURL href).params urlSearchParam)) := by
          rintro (h | ⟨h, _⟩)
          · exact ha h
          · exact hc h
        have hcond2 : ¬ (action = replaceAction ∨
            (action = pifAction ∧ ¬ ¬ hasKey (parseURL href).params urlSearchParam)) := by
          rintro (h | ⟨h, _⟩)
          · exact hb h
          · exact hc h
        simp only [setSearchUrlParameters, if_neg hcond1, if_neg hcond2]
        simp [ha, hb, hc]

/-- C4: the URL mutation of `setSearchUrlParameters` sets `search` to the
term, deletes `highlight` and clears the fragment whenever the term is
non-empty or the action is `push_if_new_search_else_replace`; otherwise it
deletes `search` (and only `search`). -/
theorem setSearchUrlParameters_params (href term action : Str) :
    ((term ≠ [] ∨ action = pifAction) →
      lookupParam (searchUrlUpdate href term action).params urlSearchParam
          = some (some term) ∧
      lookupParam (searchUrlUpdate href term action).params urlMarkParam = none ∧
      (searchUrlUpdate href term action).hash = []) ∧
    (term = [] ∧ action ≠ pifAction →
      lookupParam (searchUrlUpdate href term action).params urlSearchParam = none) := by
  have hsm : urlSearchParam ≠ urlMarkParam := by decide
  constructor
  · intro h
    simp only [searchUrlUpdate, if_pos h]
    refine ⟨?_, ?_, trivial⟩
    · rw [lookupParam_removeParam_ne _ hsm, lookupParam_insertParam_self]
    · exact lookupParam_removeParam_self _ _
  · rintro ⟨h1, h2⟩
    have hcond : ¬ (term ≠ [] ∨ action = pifAction) := by
      rintro (h | h)
      · exact h h1
      · exact h2 h
    simp only [searchUrlUpdate, if_neg hcond]
    exact lookupParam_removeParam_self _ _

theorem setSearchUrlParameters_params_witness :
    ((['f'] ≠ ([] : Str) ∨ pushAction = pifAction) ∧
      lookupParam (searchUrlUpdate "http://h/p?highlight=x#frag".data ['f'] pushAction).params
          urlSearchParam = some (some ['f']) ∧
      lookupParam (searchUrlUpdate "http://h/p?highlight=x#frag".data ['f'] pushAction).params
          urlMarkParam = none ∧
      (searchUrlUpdate "http://h/p?highlight=x#frag".data ['f'] pushAction).hash = []) ∧
    ((([] : Str) = [] ∧ replaceAction ≠ pifAction) ∧
      lookupParam (searchUrlUpdate "http://h/p?search=foo".data [] replaceAction).params
          urlSearchParam = none) :=
  ⟨⟨by decide,
    (setSearchUrlParameters_params "http://h/p?highlight=x#frag".data ['f'] pushAction).1
      (by decide)⟩,
    ⟨by decide,
    (setSearchUrlParameters_params "http://h/p?search=foo".data [] replaceAction).2
      (by decide)⟩⟩

/-- C5 counterexample: on a malformed `search` value the handler does not
fall back to the raw encoded value — the `decodeURIComponent` error
propagates (there is no try/catch at lines 828–830). -/
theorem doSearchOrMarkFromUrl_no_fallback :
    doSearchOrMarkFromUrl percentDecode "http://example.com/p?search=%".data
        = UrlSearchOutcome.raised ∧
    doSearchOrMarkFromUrl percentDecode "http://example.com/p?search=%".data
        ≠ UrlSearchOutcome.shown ['%'] := by
  constructor
  · decide
  · decide

/-- C5 (amended): `doSearchOrMarkFromUrl` raises exactly when the `search`
parameter is present, JS-nonempty, and its plus-replaced value fails
URL-decoding; when decoding succeeds the searchbar is populated with the
decoded value — never with the raw one. -/
theorem doSearchOrMarkFromUrl_outcomes (dec : Str → Option Str) (href : Str) :
    (doSearchOrMarkFromUrl dec href = UrlSearchOutcome.raised ↔
      ∃ v, lookupParam (parseURL href).params urlSearchParam = some v ∧
        jsNeEmpty v = true ∧ dec (replacePlus (jsParamString v)) = none) ∧
    (∀ d, doSearchOrMarkFromUrl dec href = UrlSearchOutcome.shown d ↔
      ∃ v, lookupParam (parseURL href).params urlSearchParam = some v ∧
        jsNeEmpty v = true ∧ dec (replacePlus (jsParamString v)) = some d) := by
  unfold doSearchOrMarkFromUrl
  cases hv : lookupParam (parseURL href).params urlSearchParam with
  | none => simp [hv]
  | some v =>
    by_cases hne : jsNeEmpty v
    · cases hd : dec (replacePlus (jsParamString v)) with
      | none => simp [hv, hne, hd]
      | some d' =>
        refine ⟨by simp [hv, hne, hd], fun d => ?_⟩
        simp only [hv, hne, if_true, hd, Option.some.injEq]
        constructor
        · intro h
          have hdd : d' = d := by injection h
          exact ⟨v, rfl, hne, by rw [hd, hdd]⟩
        · rintro ⟨v', hv', hne', hd'⟩
          cases hv'
          rw [hd] at hd'
          cases hd'
          rfl
    · simp [hv, hne]

/-- C6 (code bug): the result-list navigation the claim describes can
never happen.  The hotkey does focus the bar, but Down from the focused
bar blurs it and then throws a TypeError at line 871
(`searchresults.children` is an HTMLCollection, not a function), so focus
never reaches result 0 no matter how many results are displayed; and
Down, Up and Enter with the bar unfocused throw at line 878
(`search.searchresults` is `undefined` — `search` names the function
expression), so even a classed result item can never move.  The handler's
evaluation at these inputs: hotkey from Unfocused returns SearchbarFocused
without throwing; Down from SearchbarFocused ends Unfocused and throws;
Down and Up from a state with result 0 classed throw with the state
unchanged. -/
theorem globalKeyHandler_navigation_throws :
    globalKeyHandler (keyEv SearchKey.hotkey) ⟨false, none⟩ = ⟨⟨true, none⟩, false⟩ ∧
    globalKeyHandler (keyEv SearchKey.down) ⟨true, none⟩ = ⟨⟨false, none⟩, true⟩ ∧
    globalKeyHandler (keyEv SearchKey.down) ⟨false, some 0⟩ = ⟨⟨false, some 0⟩, true⟩ ∧
    globalKeyHandler (keyEv SearchKey.up) ⟨false, some 0⟩ = ⟨⟨false, some 0⟩, true⟩ := by
  decide

/-! ## Claim C7: parameter harvesting -/

theorem splitFirst_none_not_mem {c : Char} {s : Str} (h : splitFirst c s = none) : c ∉ s := by
  induction s with
  | nil => simp
  | cons x xs ih =>
    by_cases hx : x = c
    · subst hx
      simp [splitFirst] at h
    · simp only [splitFirst, if_neg hx] at h
      cases hsf : splitFirst c xs with
      | none =>
        intro hm
        rcases List.mem_cons.mp hm with h1 | h2
        · exact hx h1.symm
        · exact ih hsf h2
      | some ab =>
        rw [hsf] at h
        simp at h

theorem foldParams_mem :
    ∀ (segs : List Str) (acc : Params) (kv : Str × Option Str),
      kv ∈ segs.foldl
        (fun ret seg => if seg = [] then ret else insertParam ret (segKey seg) (segVal seg))
        acc →
      kv ∈ acc ∨ ∃ seg ∈ segs, seg ≠ [] ∧ kv = (segKey seg, segVal seg) := by
  intro segs
  induction segs with
  | nil =>
    intro acc kv h
    exact Or.inl h
  | cons s ss ih =>
    intro acc kv h
    rw [List.foldl_cons] at h
    by_cases hs : s = []
    · rw [if_pos hs] at h
      rcases ih acc kv h with h1 | ⟨seg, hseg, hne, hkv⟩
      · exact Or.inl h1
      · exact Or.inr ⟨seg, List.mem_cons_of_mem _ hseg, hne, hkv⟩
    · rw [if_neg hs] at h
      rcases ih _ kv h with h1 | ⟨seg, hseg, hne, hkv⟩
      · rcases mem_insertParam h1 with h2 | h2
        · exact Or.inl h2
        · exact Or.inr ⟨s, List.mem_cons_self _ _, hs, h2⟩
      · exact Or.inr ⟨seg, List.mem_cons_of_mem _ hseg, hne, hkv⟩

/-- C7 counterexample: a query segment without `=` is not dropped — it is
stored with an undefined value (`ret[s[0]] = s[1]` with `s[1]`
undefined), observable through `hasOwnProperty`. -/
theorem parseURL_keeps_eqless_segment :
    hasKey (parseURL "http://example.com/p?foo".data).params "foo".data = true ∧
    lookupParam (parseURL "http://example.com/p?foo".data).params "foo".data = some none := by
  constructor
  · decide
  · decide

/-- C7 (amended): `parseURL` is total (never raises); every parameter
entry arises from a non-empty query segment — empty segments contribute no
entry — with the text before the first `=` as key; a segment without `=`
is kept with an undefined value (`none`), not dropped. -/
theorem parseURL_params_from_segments (u : Str) :
    ∀ kv ∈ (parseURL u).params,
      ∃ seg ∈ splitAll '&' (stripLeadQ (anchorParse u).search),
        seg ≠ [] ∧ kv = (segKey seg, segVal seg) := by
  intro kv h
  have hpp : (parseURL u).params = paramsOfSearch (anchorParse u).search := rfl
  rw [hpp] at h
  unfold paramsOfSearch at h
  rcases foldParams_mem _ [] kv h with h1 | h2
  · simp at h1
  · exact h2

theorem parseURL_params_from_segments_witness :
    ((['a'], some ['1']) : Str × Option Str) ∈ (parseURL "http://h/p?a=1".data).params ∧
    ∃ seg ∈ splitAll '&' (stripLeadQ (anchorParse "http://h/p?a=1".data).search),
      seg ≠ [] ∧ ((['a'], some ['1']) : Str × Option Str) = (segKey seg, segVal seg) :=
  ⟨by decide,
    parseURL_params_from_segments "http://h/p?a=1".data (['a'], some ['1']) (by decide)⟩

/-! ## Claim C2: round-tripping support -/

theorem splitFirst_append_left {c : Char} {a : Str} (b : Str) (h : c ∉ a) :
    splitFirst c (a ++ b) = (splitFirst c b).map (fun pr => (a ++ pr.1, pr.2)) := by
  induction a with
  | nil =>
    simp only [List.nil_append]
    cases splitFirst c b <;> simp
  | cons x xs ih =>
    have hx : ¬ x = c := by rintro rfl; exact h (List.mem_cons_self _ _)
    have hxs : c ∉ xs := fun hm => h (List.mem_cons_of_mem _ hm)
    cases hb : splitFirst c b with
    | none =>
      have hnone : splitFirst c (xs ++ b) = none := by rw [ih hxs, hb]; rfl
      simp [splitFirst, hx, hnone]
    | some pr =>
      have hsome : splitFirst c (xs ++ b) = some (xs ++ pr.1, pr.2) := by
        rw [ih hxs, hb]
        rfl
      simp [splitFirst, hx, hsome]

theorem mem_of_mem_append_left {c : Char} {a b : Str} (h : c ∈ a) : c ∈ a ++ b :=
  List.mem_append.mpr (Or.inl h)

/-- The key of a segment never contains `=`, and its characters come from
the segment. -/
theorem segKey_no_eq (seg : Str) : '=' ∉ segKey seg := by
  unfold segKey
  cases hsf : splitFirst '=' seg with
  | none => exact splitFirst_none_not_mem hsf
  | some ab =>
    obtain ⟨k, r⟩ := ab
    exact (splitFirst_eq_some hsf).2

theorem segKey_subset {seg : Str} {c : Char} (h : c ∈ segKey seg) : c ∈ seg := by
  unfold segKey at h
  cases hsf : splitFirst '=' seg with
  | none => rwa [hsf] at h
  | some ab =>
    obtain ⟨k, r⟩ := ab
    rw [hsf] at h
    rw [(splitFirst_eq_some hsf).1]
    exact mem_of_mem_append_left h

theorem segVal_no_eq {seg v : Str} (h : segVal seg = some v) : '=' ∉ v := by
  cases hsf : splitFirst '=' seg with
  | none => simp [segVal, hsf] at h
  | some ab =>
    obtain ⟨k, r⟩ := ab
    cases hsf2 : splitFirst '=' r with
    | none =>
      simp only [segVal, hsf, hsf2, Option.some.injEq] at h
      subst h
      exact splitFirst_none_not_mem hsf2
    | some ab2 =>
      obtain ⟨v2, r2⟩ := ab2
      simp only [segVal, hsf, hsf2, Option.some.injEq] at h
      subst h
      exact (splitFirst_eq_some hsf2).2

theorem segVal_subset {seg v : Str} (h : segVal seg = some v) {c : Char} (hc : c ∈ v) :
    c ∈ seg := by
  cases hsf : splitFirst '=' seg with
  | none => simp [segVal, hsf] at h
  | some ab =>
    obtain ⟨k, r⟩ := ab
    have hseg : seg = k ++ '=' :: r := (splitFirst_eq_some hsf).1
    have hcr : c ∈ r := by
      cases hsf2 : splitFirst '=' r with
      | none =>
        simp only [segVal, hsf, hsf2, Option.some.injEq] at h
        rwa [h]
      | some ab2 =>
        obtain ⟨v2, r2⟩ := ab2
        simp only [segVal, hsf, hsf2, Option.some.injEq] at h
        subst h
        rw [(splitFirst_eq_some hsf2).1]
        exact mem_of_mem_append_left hc
    rw [hseg]
    exact List.mem_append.mpr (Or.inr (List.mem_cons_of_mem _ hcr))

/-- Segments with `=` have a defined value. -/
theorem segVal_isSome_of_eq_mem {seg : Str} (h : '=' ∈ seg) : ∃ v, segVal seg = some v := by
  cases hsf : splitFirst '=' seg with
  | none => exact absurd h (splitFirst_none_not_mem hsf)
  | some ab =>
    obtain ⟨k, r⟩ := ab
    cases hsf2 : splitFirst '=' r with
    | none => exact ⟨r, by simp [segVal, hsf, hsf2]⟩
    | some ab2 => exact ⟨ab2.1, by simp [segVal, hsf, hsf2]⟩

theorem segKey_mk {k : Str} (v : Str) (hk : '=' ∉ k) : segKey (k ++ '=' :: v) = k := by
  unfold segKey
  rw [splitFirst_append v hk]

theorem segVal_mk {k v : Str} (hk : '=' ∉ k) (hv : '=' ∉ v) :
    segVal (k ++ '=' :: v) = some v := by
  simp [segVal, splitFirst_append v hk, splitFirst_not_mem hv]

/-- Membership in a joined list comes from membership in a part. -/
theorem mem_joinSep_of_mem {sep : Str} {parts : List Str} {p : Str} {c : Char}
    (hp : p ∈ parts) (hc : c ∈ p) : c ∈ joinSep sep parts := by
  induction parts with
  | nil => simp at hp
  | cons q qs ih =>
    rcases List.mem_cons.mp hp with rfl | h2
    · cases qs with
      | nil => exact hc
      | cons r rs =>
        rw [joinSep_cons]
        exact mem_of_mem_append_left (mem_of_mem_append_left hc)
    · cases qs with
      | nil => simp at h2
      | cons r rs =>
        rw [joinSep_cons]
        exact List.mem_append.mpr (Or.inr (ih h2))

theorem mem_paramKeys_insert {ps : Params} {k x : Str} {v : Option Str}
    (h : x ∈ paramKeys (insertParam ps k v)) : x ∈ paramKeys ps ∨ x = k := by
  obtain ⟨kv, hkv, hx⟩ := List.mem_map.mp h
  rcases mem_insertParam hkv with h1 | h1
  · exact Or.inl (List.mem_map.mpr ⟨kv, h1, hx⟩)
  · right
    rw [← hx, h1]

theorem insertParam_keys_nodup (ps : Params) (k : Str) (v : Option Str)
    (h : (paramKeys ps).Nodup) : (paramKeys (insertParam ps k v)).Nodup := by
  induction ps with
  | nil => simp [insertParam, paramKeys]
  | cons kv0 rest ih =>
    obtain ⟨k0, v0⟩ := kv0
    rw [show paramKeys ((k0, v0) :: rest) = k0 :: paramKeys rest from rfl] at h
    rw [List.nodup_cons] at h
    obtain ⟨hk0, hrest⟩ := h
    by_cases hk : k0 = k
    · subst hk
      rw [show insertParam ((k0, v0) :: rest) k0 v = (k0, v) :: rest from by
        simp [insertParam]]
      rw [show paramKeys ((k0, v) :: rest) = k0 :: paramKeys rest from rfl]
      exact List.nodup_cons.mpr ⟨hk0, hrest⟩
    · rw [show insertParam ((k0, v0) :: rest) k v = (k0, v0) :: insertParam rest k v from by
        simp [insertParam, hk]]
      rw [show paramKeys ((k0, v0) :: insertParam rest k v)
          = k0 :: paramKeys (insertParam rest k v) from rfl]
      refine List.nodup_cons.mpr ⟨?_, ih hrest⟩
      intro hm
      rcases mem_paramKeys_insert hm with h1 | h1
      · exact hk0 h1
      · exact hk h1

theorem foldParams_keys_nodup :
    ∀ (segs : List Str) (acc : Params), (paramKeys acc).Nodup →
      (paramKeys (segs.foldl
        (fun ret seg => if seg = [] then ret else insertParam ret (segKey seg) (segVal seg))
        acc)).Nodup := by
  intro segs
  induction segs with
  | nil => intro acc h; exact h
  | cons s ss ih =>
    intro acc h
    rw [List.foldl_cons]
    by_cases hs : s = []
    · rw [if_pos hs]
      exact ih acc h
    · rw [if_neg hs]
      exact ih _ (insertParam_keys_nodup acc _ _ h)

theorem paramsOfSearch_keys_nodup (search : Str) :
    (paramKeys (paramsOfSearch search)).Nodup := by
  unfold paramsOfSearch
  exact foldParams_keys_nodup _ [] (by simp [paramKeys])

theorem insertParam_append {ps : Params} {k : Str} (v : Option Str)
    (h : k ∉ paramKeys ps) : insertParam ps k v = ps ++ [(k, v)] := by
  induction ps with
  | nil => rfl
  | cons kv0 rest ih =>
    obtain ⟨k0, v0⟩ := kv0
    rw [show paramKeys ((k0, v0) :: rest) = k0 :: paramKeys rest from rfl] at h
    have hk : ¬ k0 = k := by
      rintro rfl
      exact h (List.mem_cons_self _ _)
    have hrest : k ∉ paramKeys rest := fun hm => h (List.mem_cons_of_mem _ hm)
    simp [insertParam, hk, ih hrest]

theorem ampSeg_ne_nil (kv : Str × Option Str) : ampSeg kv ≠ [] := by
  simp [ampSeg]

theorem ampSegs_ne_nil (kv : Str × Option Str) (rest : Params) :
    ampSegs (kv :: rest) ≠ [] := by
  cases rest with
  | nil => simpa [ampSegs, joinSep] using ampSeg_ne_nil kv
  | cons r rr =>
    rw [ampSegs, List.map_cons, List.map_cons, joinSep_cons]
    simp [ampSeg]

theorem renderParams_fold (rest : Params) :
    ∀ pre : Str,
      (rest.foldl
        (fun (acc : Str × Str) kv =>
          (acc.1 ++ acc.2 ++ kv.1 ++ ['='] ++ jsParamString kv.2, ['&']))
        (pre, ['&'])).1
      = pre ++ (match rest with | [] => [] | _ :: _ => '&' :: ampSegs rest) := by
  induction rest with
  | nil => intro pre; simp
  | cons kv rest2 ih =>
    intro pre
    rw [List.foldl_cons, ih]
    cases rest2 with
    | nil => simp [ampSegs, ampSeg, joinSep]
    | cons r rr =>
      rw [show ampSegs (kv :: r :: rr)
          = ampSeg kv ++ ['&'] ++ ampSegs (r :: rr) from by
        rw [ampSegs, List.map_cons, List.map_cons, joinSep_cons]
        rfl]
      simp [ampSeg, List.append_assoc]

theorem renderParams_eq (ps : Params) (hne : ps ≠ []) :
    renderParams ps = '?' :: ampSegs ps := by
  obtain ⟨kv, rest, rfl⟩ := List.exists_cons_of_ne_nil hne
  unfold renderParams
  rw [List.foldl_cons, renderParams_fold]
  cases rest with
  | nil => simp [ampSegs, ampSeg, joinSep]
  | cons r rr =>
    rw [show ampSegs (kv :: r :: rr) = ampSeg kv ++ ['&'] ++ ampSegs (r :: rr) from by
      rw [ampSegs, List.map_cons, List.map_cons, joinSep_cons]
      rfl]
    simp [ampSeg, List.append_assoc]

theorem fold_insert_ampSegs :
    ∀ (ps : Params) (acc : Params),
      (∀ kv ∈ ps, '=' ∉ kv.1 ∧ ∃ v, kv.2 = some v ∧ '=' ∉ v) →
      (∀ kv ∈ ps, kv.1 ∉ paramKeys acc) →
      (paramKeys ps).Nodup →
      ((ps.map ampSeg).foldl
        (fun ret seg => if seg = [] then ret else insertParam ret (segKey seg) (segVal seg))
        acc)
      = acc ++ ps := by
  intro ps
  induction ps with
  | nil =>
    intro acc _ _ _
    simp
  | cons kv rest ih =>
    intro acc hgood hdisj hnd
    obtain ⟨k, v2⟩ := kv
    obtain ⟨hk_eq, v, hv2, hv_eq⟩ := hgood _ (List.mem_cons_self _ _)
    subst hv2
    rw [List.map_cons, List.foldl_cons, if_neg (ampSeg_ne_nil (k, some v))]
    have hkey : segKey (ampSeg (k, some v)) = k := segKey_mk _ hk_eq
    have hval : segVal (ampSeg (k, some v)) = some v := segVal_mk hk_eq hv_eq
    rw [hkey, hval, insertParam_append (some v) (hdisj _ (List.mem_cons_self _ _))]
    rw [show paramKeys ((k, some v) :: rest) = k :: paramKeys rest from rfl] at hnd
    rw [List.nodup_cons] at hnd
    rw [ih (acc ++ [(k, some v)])
      (fun kv' hm => hgood kv' (List.mem_cons_of_mem _ hm))
      (fun kv' hm => by
        rw [show paramKeys (acc ++ [(k, some v)]) = paramKeys acc ++ [k] from by
          simp [paramKeys]]
        intro hmem
        rcases List.mem_append.mp hmem with h1 | h1
        · exact hdisj kv' (List.mem_cons_of_mem _ hm) h1
        · have : kv'.1 = k := by simpa using h1
          exact hnd.1 (this ▸ List.mem_map.mpr ⟨kv', hm, rfl⟩))
      hnd.2]
    simp

theorem paramsOfSearch_amp (ps : Params)
    (hgood : ∀ kv ∈ ps, (∀ c ∈ kv.1, c ≠ '&' ∧ c ≠ '=' ∧ c ≠ '#') ∧
      ∃ v, kv.2 = some v ∧ ∀ c ∈ v, c ≠ '&' ∧ c ≠ '=' ∧ c ≠ '#')
    (hnd : (paramKeys ps).Nodup) (hne : ps ≠ []) :
    paramsOfSearch ('?' :: ampSegs ps) = ps := by
  unfold paramsOfSearch
  rw [show stripLeadQ ('?' :: ampSegs ps) = ampSegs ps from rfl]
  have hsegs : ∀ p ∈ ps.map ampSeg, '&' ∉ p := by
    intro p hp
    obtain ⟨kv, hkv, rfl⟩ := List.mem_map.mp hp
    obtain ⟨hk, v, hv2, hv⟩ := hgood kv hkv
    intro hm
    rw [ampSeg, hv2] at hm
    rcases List.mem_append.mp hm with h1 | h1
    · exact (hk _ h1).1 rfl
    · rcases List.mem_cons.mp h1 with h2 | h2
      · exact absurd h2.symm (by decide)
      · exact (hv _ h2).1 rfl
  rw [show ampSegs ps = joinSep ['&'] (ps.map ampSeg) from rfl,
    splitAll_joinSep (by simpa using hne) hsegs]
  rw [fold_insert_ampSegs ps []
    (fun kv hm => ⟨fun he => ((hgood kv hm).1 _ he).2.1 rfl, by
      obtain ⟨hk, v, hv2, hv⟩ := hgood kv hm
      exact ⟨v, hv2, fun he => (hv _ he).2.1 rfl⟩⟩)
    (fun kv _ => by simp [paramKeys])
    hnd]
  simp

theorem splitHash_not_mem {u : Str} (h : '#' ∉ u) : splitHash u = (u, []) := by
  unfold splitHash
  rw [splitFirst_not_mem h]

theorem splitHash_append {a : Str} (f : Str) (ha : '#' ∉ a) (hf : f ≠ []) :
    splitHash (a ++ '#' :: f) = (a, '#' :: f) := by
  unfold splitHash
  rw [splitFirst_append f ha]
  simp [hf]

theorem splitQuery_not_mem {s : Str} (h : '?' ∉ s) : splitQuery s = (s, []) := by
  unfold splitQuery
  rw [splitFirst_not_mem h]

theorem splitQuery_append {a : Str} (q : Str) (ha : '?' ∉ a) (hq : q ≠ []) :
    splitQuery (a ++ '?' :: q) = (a, '?' :: q) := by
  unfold splitQuery
  rw [splitFirst_append q ha]
  simp [hq]

theorem splitScheme_append {sch : Str} (r : Str) (h : ':' ∉ sch) :
    splitScheme (sch ++ ':' :: r) = (sch ++ [':'], r) := by
  unfold splitScheme
  rw [splitFirst_append r h]

theorem splitAuthority_render (host port path : Str)
    (hhost : ∀ c ∈ host, ¬ c = '/' ∧ ¬ c = ':')
    (hport : ∀ c ∈ port, ¬ c = '/')
    (hpath : path = [] ∨ ∃ t, path = '/' :: t) :
    splitAuthority ('/' :: '/' :: (host ++ (if port ≠ [] then ':' :: port else []) ++ path))
      = (host, port, path) := by
  have hall : ∀ c ∈ host ++ (if port ≠ [] then ':' :: port else []),
      (fun c => (decide (¬ c = '/'))) c = true := by
    intro c hc
    rcases List.mem_append.mp hc with h1 | h1
    · simpa using (hhost c h1).1
    · by_cases hp : port = []
      · simp [hp] at h1
      · rw [if_pos hp] at h1
        rcases List.mem_cons.mp h1 with h2 | h2
        · simp [h2]
        · simpa using hport c h2
  have htw : ((host ++ (if port ≠ [] then ':' :: port else []) ++ path).takeWhile
        (fun c => decide (¬ c = '/')))
      = host ++ (if port ≠ [] then ':' :: port else []) := by
    rw [takeWhile_append_all path hall]
    rcases hpath with rfl | ⟨t, rfl⟩
    · simp
    · simp [List.takeWhile]
  have hdw : ((host ++ (if port ≠ [] then ':' :: port else []) ++ path).dropWhile
        (fun c => decide (¬ c = '/'))) = path := by
    rw [dropWhile_append_all path hall]
    rcases hpath with rfl | ⟨t, rfl⟩
    · simp
    · simp [List.dropWhile]
  unfold splitAuthority
  rw [if_pos (show ('/' :: '/' :: (host ++ (if port ≠ [] then ':' :: port else []) ++ path)).take 2
      = ['/', '/'] from rfl)]
  rw [show (('/' :: '/' :: (host ++ (if port ≠ [] then ':' :: port else []) ++ path)).drop 2)
      = host ++ (if port ≠ [] then ':' :: port else []) ++ path from rfl]
  rw [htw, hdw]
  by_cases hp : port = []
  · subst hp
    simp only [ne_eq, not_true_eq_false, if_false, List.append_nil]
    rw [splitFirst_not_mem (fun hm => (hhost ':' hm).2 rfl)]
  · rw [if_pos hp]
    rw [splitFirst_append port (fun hm => (hhost ':' hm).2 rfl)]

theorem mem_joinSep_cases {sep : Str} {parts : List Str} {c : Char}
    (h : c ∈ joinSep sep parts) : c ∈ sep ∨ ∃ p ∈ parts, c ∈ p := by
  induction parts with
  | nil => simp [joinSep] at h
  | cons p ps ih =>
    cases ps with
    | nil => exact Or.inr ⟨p, List.mem_cons_self _ _, h⟩
    | cons q qs =>
      rw [joinSep_cons] at h
      rcases List.mem_append.mp h with h1 | h1
      · rcases List.mem_append.mp h1 with h2 | h2
        · exact Or.inr ⟨p, List.mem_cons_self _ _, h2⟩
        · exact Or.inl h2
      · rcases ih h1 with h2 | ⟨r, hr, hc⟩
        · exact Or.inl h2
        · exact Or.inr ⟨r, List.mem_cons_of_mem _ hr, hc⟩

theorem anchorParse_render (s : UrlState) (hgs : GoodState s) :
    anchorParse (renderURL s)
      = ⟨s.protocol ++ [':'], s.host, s.port, s.path,
          (if s.params = [] then [] else '?' :: ampSegs s.params),
          (if s.hash = [] then [] else '#' :: s.hash)⟩ := by
  obtain ⟨hprot, hhost, hport, hpshape, hpath, hparams, hnd⟩ := hgs
  set C := s.protocol ++ ':' :: '/' :: '/' ::
    (s.host ++ (if s.port ≠ [] then ':' :: s.port else []) ++ s.path) with hCdef
  have hQ : renderParams s.params = (if s.params = [] then [] else '?' :: ampSegs s.params) := by
    cases hps : s.params with
    | nil => rfl
    | cons kv rest =>
      rw [renderParams_eq _ (by simp)]
      simp
  have hamp_nohash : '#' ∉ ampSegs s.params := by
    intro hm
    rcases mem_joinSep_cases hm with h1 | ⟨p, hp, hc⟩
    · simp at h1
    · obtain ⟨kv, hkv, rfl⟩ := List.mem_map.mp hp
      obtain ⟨hk, v, hv2, hv⟩ := hparams kv hkv
      simp only [ampSeg, hv2, jsParamString] at hc
      rcases List.mem_append.mp hc with h2 | h2
      · exact (hk _ h2).2.2 rfl
      · rcases List.mem_cons.mp h2 with h3 | h3
        · exact absurd h3 (by decide)
        · exact (hv _ h3).2.2 rfl
  have hC_mem : ∀ c ∈ C, ¬ c = '?' ∧ ¬ c = '#' := by
    intro c hc
    rw [hCdef] at hc
    rcases List.mem_append.mp hc with h1 | h1
    · exact ⟨(hprot c h1).2.2.1, (hprot c h1).2.2.2⟩
    · rcases List.mem_cons.mp h1 with rfl | h1
      · exact ⟨by decide, by decide⟩
      · rcases List.mem_cons.mp h1 with rfl | h1
        · exact ⟨by decide, by decide⟩
        · rcases List.mem_cons.mp h1 with rfl | h1
          · exact ⟨by decide, by decide⟩
          · rcases List.mem_append.mp h1 with h2 | h2
            · rcases List.mem_append.mp h2 with h3 | h3
              · exact ⟨(hhost c h3).2.2.1, (hhost c h3).2.2.2⟩
              · by_cases hp : s.port = []
                · simp [hp] at h3
                · rw [if_pos hp] at h3
                  rcases List.mem_cons.mp h3 with rfl | h3
                  · exact ⟨by decide, by decide⟩
                  · exact ⟨(hport c h3).2.1, (hport c h3).2.2⟩
            · exact hpath c h2
  have hdecomp : renderURL s
      = C ++ renderParams s.params ++ (if s.hash ≠ [] then '#' :: s.hash else []) := by
    rw [hCdef]
    unfold renderURL
    rw [show "://".data = [':', '/', '/'] from by decide]
    simp [List.append_assoc]
  have hB_nohash : '#' ∉ C ++ renderParams s.params := by
    intro hm
    rcases List.mem_append.mp hm with h1 | h1
    · exact (hC_mem _ h1).2 rfl
    · rw [hQ] at h1
      by_cases hps : s.params = []
      · simp [hps] at h1
      · rw [if_neg hps] at h1
        rcases List.mem_cons.mp h1 with h2 | h2
        · exact absurd h2 (by decide)
        · exact hamp_nohash h2
  have hsplit1 : splitHash (renderURL s)
      = (C ++ renderParams s.params, if s.hash = [] then [] else '#' :: s.hash) := by
    rw [hdecomp]
    by_cases hh : s.hash = []
    · rw [show (if s.hash ≠ [] then '#' :: s.hash else []) = [] from by simp [hh]]
      rw [List.append_nil, splitHash_not_mem hB_nohash, if_pos hh]
    · rw [show (if s.hash ≠ [] then '#' :: s.hash else []) = '#' :: s.hash from by simp [hh]]
      rw [splitHash_append s.hash hB_nohash hh, if_neg hh]
  have hsplit2 : splitQuery (C ++ renderParams s.params)
      = (C, if s.params = [] then [] else '?' :: ampSegs s.params) := by
    rw [hQ]
    by_cases hps : s.params = []
    · rw [if_pos hps, List.append_nil, splitQuery_not_mem (fun hm => (hC_mem _ hm).1 rfl)]
    · rw [if_neg hps]
      obtain ⟨kv, rest, hkr⟩ := List.exists_cons_of_ne_nil hps
      rw [splitQuery_append _ (fun hm => (hC_mem _ hm).1 rfl) (hkr ▸ ampSegs_ne_nil kv rest)]
  have hsplit3 : splitScheme C
      = (s.protocol ++ [':'],
          '/' :: '/' :: (s.host ++ (if s.port ≠ [] then ':' :: s.port else []) ++ s.path)) := by
    rw [hCdef]
    exact splitScheme_append _ (fun hm => (hprot _ hm).1 rfl)
  have hsplit4 : splitAuthority
      ('/' :: '/' :: (s.host ++ (if s.port ≠ [] then ':' :: s.port else []) ++ s.path))
      = (s.host, s.port, s.path) :=
    splitAuthority_render _ _ _
      (fun c hc => ⟨(hhost c hc).2.1, (hhost c hc).1⟩)
      (fun c hc => (hport c hc).1)
      hpshape
  have e1 : (splitHash (renderURL s)).1 = C ++ renderParams s.params := by rw [hsplit1]
  have e1h : (splitHash (renderURL s)).2 = (if s.hash = [] then [] else '#' :: s.hash) := by
    rw [hsplit1]
  have e2 : (splitQuery (splitHash (renderURL s)).1).1 = C := by rw [e1, hsplit2]
  have e2q : (splitQuery (splitHash (renderURL s)).1).2
      = (if s.params = [] then [] else '?' :: ampSegs s.params) := by
    rw [e1, hsplit2]
  have e3 : (splitScheme (splitQuery (splitHash (renderURL s)).1).1).1
      = s.protocol ++ [':'] := by
    rw [e2, hsplit3]
  have e3r : (splitScheme (splitQuery (splitHash (renderURL s)).1).1).2
      = '/' :: '/' :: (s.host ++ (if s.port ≠ [] then ':' :: s.port else []) ++ s.path) := by
    rw [e2, hsplit3]
  have e4 : splitAuthority (splitScheme (splitQuery (splitHash (renderURL s)).1).1).2
      = (s.host, s.port, s.path) := by
    rw [e3r, hsplit4]
  unfold anchorParse
  rw [e3, e4, e2q, e1h]

theorem parseURL_renderURL (s : UrlState) (hgs : GoodState s) :
    (parseURL (renderURL s)).protocol = s.protocol ∧
    (parseURL (renderURL s)).host = s.host ∧
    (parseURL (renderURL s)).port = s.port ∧
    (parseURL (renderURL s)).path = s.path ∧
    (parseURL (renderURL s)).params = s.params ∧
    (parseURL (renderURL s)).hash = s.hash := by
  have ha := anchorParse_render s hgs
  obtain ⟨hprot, hhost, hport, hpshape, hpath, hparams, hnd⟩ := hgs
  unfold parseURL
  rw [ha]
  refine ⟨?_, rfl, rfl, ?_, ?_, ?_⟩
  · show replaceFirst ':' [] (s.protocol ++ [':']) = s.protocol
    have := replaceFirst_append ([] : Str) ([] : Str)
      (fun hm => (hprot _ hm).1 rfl)
    simpa using this
  · show pathFix s.path = s.path
    rcases hpshape with hp | ⟨t, hp⟩ <;> simp [hp, pathFix]
  · show paramsOfSearch (if s.params = [] then [] else '?' :: ampSegs s.params) = s.params
    by_cases hps : s.params = []
    · rw [if_pos hps, hps]
      rfl
    · rw [if_neg hps]
      exact paramsOfSearch_amp s.params hparams hnd hps
  · show replaceFirst '#' [] (if s.hash = [] then [] else '#' :: s.hash) = s.hash
    by_cases hh : s.hash = []
    · rw [if_pos hh, hh]
      rfl
    · rw [if_neg hh]
      have := replaceFirst_append (c := '#') ([] : Str) s.hash
        (show '#' ∉ ([] : Str) from by simp)
      simpa using this

theorem take_two_shape {r : Str} (h : r.take 2 = ['/', '/']) : ∃ t, r = '/' :: '/' :: t := by
  match r with
  | [] => simp at h
  | [a] => simp at h
  | a :: b :: t =>
    simp [List.take] at h
    exact ⟨t, by rw [h.1, h.2]⟩

theorem splitAuthority_fields (C : Str) :
    (∀ c ∈ (splitAuthority ('/' :: '/' :: C)).1, c ∈ C ∧ ¬ c = '/' ∧ ¬ c = ':') ∧
    (∀ c ∈ (splitAuthority ('/' :: '/' :: C)).2.1, c ∈ C ∧ ¬ c = '/') ∧
    ((splitAuthority ('/' :: '/' :: C)).2.2 = []
      ∨ ∃ t, (splitAuthority ('/' :: '/' :: C)).2.2 = '/' :: t) ∧
    (∀ c ∈ (splitAuthority ('/' :: '/' :: C)).2.2, c ∈ C) := by
  have htw_mem : ∀ c ∈ C.takeWhile (fun c => decide (¬ c = '/')), c ∈ C ∧ ¬ c = '/' := by
    intro c hc
    refine ⟨(List.takeWhile_sublist _).mem hc, ?_⟩
    have := List.mem_takeWhile_imp hc
    simpa using this
  have hdw_mem : ∀ c ∈ C.dropWhile (fun c => decide (¬ c = '/')), c ∈ C := by
    intro c hc
    exact (List.dropWhile_sublist _).mem hc
  have hdw_shape : C.dropWhile (fun c => decide (¬ c = '/')) = []
      ∨ ∃ t, C.dropWhile (fun c => decide (¬ c = '/')) = '/' :: t := by
    cases hdw : C.dropWhile (fun c => decide (¬ c = '/')) with
    | nil => exact Or.inl rfl
    | cons a t =>
      right
      have hh := List.head?_dropWhile_not (fun c => decide (¬ c = '/')) C
      rw [hdw] at hh
      simp at hh
      exact ⟨t, by rw [hh]⟩
  have hdrop : (('/' :: '/' :: C).drop 2) = C := rfl
  unfold splitAuthority
  rw [if_pos (show ('/' :: '/' :: C).take 2 = ['/', '/'] from rfl), hdrop]
  cases hsp : splitFirst ':' (C.takeWhile (fun c => decide (¬ c = '/'))) with
  | none =>
    refine ⟨?_, ?_, hdw_shape, hdw_mem⟩
    · intro c hc
      exact ⟨(htw_mem c hc).1, (htw_mem c hc).2, fun he =>
        splitFirst_none_not_mem hsp (he ▸ hc)⟩
    · intro c hc
      simp at hc
  | some hp =>
    obtain ⟨h, p⟩ := hp
    obtain ⟨htw_eq, hcolon⟩ := splitFirst_eq_some hsp
    refine ⟨?_, ?_, hdw_shape, hdw_mem⟩
    · intro c hc
      have hmem : c ∈ C.takeWhile (fun c => decide (¬ c = '/')) := by
        rw [htw_eq]
        exact mem_of_mem_append_left hc
      exact ⟨(htw_mem c hmem).1, (htw_mem c hmem).2, fun he => hcolon (he ▸ hc)⟩
    · intro c hc
      have hmem : c ∈ C.takeWhile (fun c => decide (¬ c = '/')) := by
        rw [htw_eq]
        exact List.mem_append.mpr (Or.inr (List.mem_cons_of_mem _ hc))
      exact htw_mem c hmem

theorem mem_of_mem_splitAll_part {c : Char} {s p : Str} {x : Char}
    (hp : p ∈ splitAll c s) (hx : x ∈ p) : x ∈ s := by
  have h := @mem_joinSep_of_mem [c] (splitAll c s) p x hp hx
  rwa [joinSep_splitAll] at h

theorem parseURL_good (u : Str) (h1 : isSchemeUrl u = true) (h2 : allSegsWellFormed u = true) :
    GoodState (parseURL u) := by
  cases hsf : splitFirst ':' u with
  | none => simp [isSchemeUrl, hsf] at h1
  | some sr =>
    obtain ⟨sch, r⟩ := sr
    simp only [isSchemeUrl, hsf, Bool.and_eq_true, decide_eq_true_eq,
      List.all_eq_true] at h1
    obtain ⟨⟨hsch_ne, hsch_all⟩, htake⟩ := h1
    obtain ⟨rest0, hr⟩ := take_two_shape htake
    obtain ⟨hu_eq, hcolon⟩ := splitFirst_eq_some hsf
    have hu : u = (sch ++ [':', '/', '/']) ++ rest0 := by
      rw [hu_eq, hr]
      simp
    have hpre_nohash : '#' ∉ sch ++ [':', '/', '/'] := by
      intro hm
      rcases List.mem_append.mp hm with hm1 | hm1
      · exact (hsch_all _ hm1).2.2 rfl
      · exact absurd hm1 (by decide)
    have hpre_noq : '?' ∉ sch ++ [':', '/', '/'] := by
      intro hm
      rcases List.mem_append.mp hm with hm1 | hm1
      · exact (hsch_all _ hm1).2.1 rfl
      · exact absurd hm1 (by decide)
    have hBH : ∃ B1, (splitHash u).1 = (sch ++ [':', '/', '/']) ++ B1 ∧ '#' ∉ B1 := by
      cases hsf1 : splitFirst '#' rest0 with
      | none =>
        refine ⟨rest0, ?_, splitFirst_none_not_mem hsf1⟩
        have hnou : '#' ∉ u := by
          rw [hu]
          intro hm
          rcases List.mem_append.mp hm with hm1 | hm1
          · exact hpre_nohash hm1
          · exact splitFirst_none_not_mem hsf1 hm1
        rw [splitHash_not_mem hnou, hu]
      | some bf =>
        obtain ⟨b, f⟩ := bf
        obtain ⟨hr0, hnob⟩ := splitFirst_eq_some hsf1
        refine ⟨b, ?_, hnob⟩
        have hsp : splitFirst '#' u = some ((sch ++ [':', '/', '/']) ++ b, f) := by
          rw [hu, hr0, ← List.append_assoc]
          refine splitFirst_append f ?_
          intro hm
          rcases List.mem_append.mp hm with hm1 | hm1
          · exact hpre_nohash hm1
          · exact hnob hm1
        unfold splitHash
        rw [hsp]
    obtain ⟨B1, hbh1, hbh2⟩ := hBH
    have hQS : ∃ B2, (splitQuery (splitHash u).1).1 = (sch ++ [':', '/', '/']) ++ B2
        ∧ '#' ∉ B2 ∧ '?' ∉ B2
        ∧ ((splitQuery (splitHash u).1).2 = []
            ∨ ∃ q, (splitQuery (splitHash u).1).2 = '?' :: q ∧ '#' ∉ q) := by
      cases hsf2 : splitFirst '?' B1 with
      | none =>
        have hnobh : '?' ∉ (splitHash u).1 := by
          rw [hbh1]
          intro hm
          rcases List.mem_append.mp hm with hm1 | hm1
          · exact hpre_noq hm1
          · exact splitFirst_none_not_mem hsf2 hm1
        refine ⟨B1, ?_, hbh2, splitFirst_none_not_mem hsf2, Or.inl ?_⟩
        · rw [splitQuery_not_mem hnobh, hbh1]
        · rw [splitQuery_not_mem hnobh]
      | some aq =>
        obtain ⟨a, q⟩ := aq
        obtain ⟨hb1_eq, hqa⟩ := splitFirst_eq_some hsf2
        have ha_sub : ∀ c ∈ a, c ∈ B1 := fun c hc => by
          rw [hb1_eq]
          exact mem_of_mem_append_left hc
        have hq_sub : ∀ c ∈ q, c ∈ B1 := fun c hc => by
          rw [hb1_eq]
          exact List.mem_append.mpr (Or.inr (List.mem_cons_of_mem _ hc))
        have hsp : splitFirst '?' (splitHash u).1
            = some ((sch ++ [':', '/', '/']) ++ a, q) := by
          rw [hbh1, hb1_eq, ← List.append_assoc]
          refine splitFirst_append q ?_
          intro hm
          rcases List.mem_append.mp hm with hm1 | hm1
          · exact hpre_noq hm1
          · exact hqa hm1
        have hq1 : (splitQuery (splitHash u).1).1 = (sch ++ [':', '/', '/']) ++ a := by
          unfold splitQuery
          rw [hsp]
        have hq2 : (splitQuery (splitHash u).1).2 = (if q = [] then [] else '?' :: q) := by
          unfold splitQuery
          rw [hsp]
        by_cases hq : q = []
        · refine ⟨a, hq1, fun hm => hbh2 (ha_sub _ hm), hqa, Or.inl ?_⟩
          rw [hq2, if_pos hq]
        · refine ⟨a, hq1, fun hm => hbh2 (ha_sub _ hm), hqa,
            Or.inr ⟨q, ?_, fun hm => hbh2 (hq_sub _ hm)⟩⟩
          rw [hq2, if_neg hq]
    obtain ⟨B2, hbq1, hB2h, hB2q, hQshape⟩ := hQS
    have hsc : splitScheme ((sch ++ [':', '/', '/']) ++ B2)
        = (sch ++ [':'], '/' :: '/' :: B2) := by
      have hassoc : (sch ++ [':', '/', '/']) ++ B2 = sch ++ ':' :: ('/' :: '/' :: B2) := by
        simp
      rw [hassoc]
      exact splitScheme_append _ hcolon
    have hsc1 : (splitScheme (splitQuery (splitHash u).1).1).1 = sch ++ [':'] := by
      rw [hbq1, hsc]
    have hsc2 : (splitScheme (splitQuery (splitHash u).1).1).2 = '/' :: '/' :: B2 := by
      rw [hbq1, hsc]
    have hAF := splitAuthority_fields B2
    have hhost_eq : (parseURL u).host = (splitAuthority ('/' :: '/' :: B2)).1 := by
      show (splitAuthority (splitScheme (splitQuery (splitHash u).1).1).2).1 = _
      rw [hsc2]
    have hport_eq : (parseURL u).port = (splitAuthority ('/' :: '/' :: B2)).2.1 := by
      show (splitAuthority (splitScheme (splitQuery (splitHash u).1).1).2).2.1 = _
      rw [hsc2]
    have hpath_eq : (parseURL u).path = pathFix (splitAuthority ('/' :: '/' :: B2)).2.2 := by
      show pathFix (splitAuthority (splitScheme (splitQuery (splitHash u).1).1).2).2.2 = _
      rw [hsc2]
    have hnohash_q : '#' ∉ stripLeadQ (splitQuery (splitHash u).1).2 := by
      rcases hQshape with hq0 | ⟨q, hq0, hqh⟩
      · rw [hq0]
        simp [stripLeadQ]
      · rw [hq0]
        simpa [stripLeadQ] using hqh
    refine ⟨?_, ?_, ?_, ?_, ?_, ?_, ?_⟩
    · have hpr : (parseURL u).protocol = sch := by
        show replaceFirst ':' [] (splitScheme (splitQuery (splitHash u).1).1).1 = sch
        rw [hsc1]
        have hrf := replaceFirst_append ([] : Str) ([] : Str) hcolon
        simpa using hrf
      rw [hpr]
      intro c hc
      exact ⟨fun he => hcolon (he ▸ hc), (hsch_all c hc).1, (hsch_all c hc).2.1,
        (hsch_all c hc).2.2⟩
    · intro c hc
      rw [hhost_eq] at hc
      obtain ⟨hcB2, hcs, hcc⟩ := hAF.1 c hc
      exact ⟨hcc, hcs, fun he => hB2q (he ▸ hcB2), fun he => hB2h (he ▸ hcB2)⟩
    · intro c hc
      rw [hport_eq] at hc
      obtain ⟨hcB2, hcs⟩ := hAF.2.1 c hc
      exact ⟨hcs, fun he => hB2q (he ▸ hcB2), fun he => hB2h (he ▸ hcB2)⟩
    · rcases hAF.2.2.1 with hsh | ⟨t, hsh⟩
      · left
        rw [hpath_eq, hsh]
        rfl
      · right
        refine ⟨t, ?_⟩
        rw [hpath_eq, hsh]
        simp [pathFix]
    · intro c hc
      rw [hpath_eq] at hc
      rcases hAF.2.2.1 with hsh | ⟨t, hsh⟩
      · rw [hsh] at hc
        simp [pathFix] at hc
      · have hcpn : c ∈ (splitAuthority ('/' :: '/' :: B2)).2.2 := by
          rw [hsh]
          rw [hsh] at hc
          simpa [pathFix] using hc
        have hcB2 := hAF.2.2.2 c hcpn
        exact ⟨fun he => hB2q (he ▸ hcB2), fun he => hB2h (he ▸ hcB2)⟩
    · intro kv hkv
      obtain ⟨seg, hseg_in, hseg_ne, hkv_eq⟩ := parseURL_params_from_segments u kv hkv
      have hamp : '&' ∉ seg := not_mem_of_mem_splitAll hseg_in
      have hhash_seg : '#' ∉ seg := fun hm =>
        hnohash_q (mem_of_mem_splitAll_part hseg_in hm)
      have heq_seg : '=' ∈ seg := by
        simp only [allSegsWellFormed, List.all_eq_true, decide_eq_true_eq] at h2
        rcases h2 seg hseg_in with h0 | h0
        · exact absurd h0 hseg_ne
        · exact h0
      obtain ⟨v, hv⟩ := segVal_isSome_of_eq_mem heq_seg
      rw [hkv_eq]
      refine ⟨?_, v, hv, ?_⟩
      · intro c hc
        exact ⟨fun he => hamp (he ▸ segKey_subset hc),
          fun he => segKey_no_eq seg (he ▸ hc),
          fun he => hhash_seg (he ▸ segKey_subset hc)⟩
      · intro c hc
        exact ⟨fun he => hamp (he ▸ segVal_subset hv hc),
          fun he => segVal_no_eq hv (he ▸ hc),
          fun he => hhash_seg (he ▸ segVal_subset hv hc)⟩
    · exact paramsOfSearch_keys_nodup _

/-- C2 counterexample: a query segment without `=` (here `?foo`) parses to
an undefined value which `renderURL` stringifies as `undefined`, so
`parseURL (renderURL (parseURL u))` differs from `parseURL u` on
`params`. -/
theorem parse_render_roundtrip_cex :
    (parseURL (renderURL (parseURL "http://example.com/p?foo".data))).params
      ≠ (parseURL "http://example.com/p?foo".data).params := by
  decide

/-- C2 (amended): for every scheme-bearing URL string whose non-empty
query segments all carry `=`, re-parsing the rendered parse agrees with
the parse on protocol, host, port, path, params and hash. -/
theorem parse_render_roundtrip (u : Str) (h1 : isSchemeUrl u = true)
    (h2 : allSegsWellFormed u = true) :
    (parseURL (renderURL (parseURL u))).protocol = (parseURL u).protocol ∧
    (parseURL (renderURL (parseURL u))).host = (parseURL u).host ∧
    (parseURL (renderURL (parseURL u))).port = (parseURL u).port ∧
    (parseURL (renderURL (parseURL u))).path = (parseURL u).path ∧
    (parseURL (renderURL (parseURL u))).params = (parseURL u).params ∧
    (parseURL (renderURL (parseURL u))).hash = (parseURL u).hash :=
  parseURL_renderURL (parseURL u) (parseURL_good u h1 h2)

theorem parse_render_roundtrip_witness :
    isSchemeUrl "http://example.com:8080/a/b?x=1&y=2#frag".data = true ∧
    allSegsWellFormed "http://example.com:8080/a/b?x=1&y=2#frag".data = true ∧
    ((parseURL (renderURL (parseURL "http://example.com:8080/a/b?x=1&y=2#frag".data))).protocol
        = (parseURL "http://example.com:8080/a/b?x=1&y=2#frag".data).protocol ∧
      (parseURL (renderURL (parseURL "http://example.com:8080/a/b?x=1&y=2#frag".data))).host
        = (parseURL "http://example.com:8080/a/b?x=1&y=2#frag".data).host ∧
      (parseURL (renderURL (parseURL "http://example.com:8080/a/b?x=1&y=2#frag".data))).port
        = (parseURL "http://example.com:8080/a/b?x=1&y=2#frag".data).port ∧
      (parseURL (renderURL (parseURL "http://example.com:8080/a/b?x=1&y=2#frag".data))).path
        = (parseURL "http://example.com:8080/a/b?x=1&y=2#frag".data).path ∧
      (parseURL (renderURL (parseURL "http://example.com:8080/a/b?x=1&y=2#frag".data))).params
        = (parseURL "http://example.com:8080/a/b?x=1&y=2#frag".data).params ∧
      (parseURL (renderURL (parseURL "http://example.com:8080/a/b?x=1&y=2#frag".data))).hash
        = (parseURL "http://example.com:8080/a/b?x=1&y=2#frag".data).hash) :=
  ⟨by decide, by decide,
    parse_render_roundtrip "http://example.com:8080/a/b?x=1&y=2#frag".data
      (by decide) (by decide)⟩
